import Mathlib

/-!
A verification development for the `tomes.js` observable-tree library.

The library maintains an in-memory tree of "Tomes" mirroring a JSON-like
value.  Every mutating operation updates the node's value, builds a diff
record that is merged upward into every ancestor's pending diff, and either
emits or buffers the corresponding events.  This file gives a shallow
embedding of the data model (`Tome`), the mutating operations
(`assignLocal`, `setLocal`, `delLocal`, the array operations, ...), the diff
chain propagation (`chainNodeAll`, `runAt`), the event buffering protocol
(`pause`, `resume`, `notify`) and diff replay (`mergeDispatch`, `consume`),
and proves properties of them.

Modelling conventions:
* JavaScript strings are modelled as `List Char` (`Str`); JavaScript numbers
  as `Int` (no claim under consideration depends on float behaviour).
* Thrown exceptions are modelled with `Except`: an error return means the
  operation raised; operations whose error checks precede every mutation
  (as in the source) therefore leave the state unchanged and emit nothing.
* Event emission order inside a single operation is rendered as: all
  structural events of the operation first, then the `signal`/`change`/
  `diff` chain emissions, which matches the source for every operation
  with a single trailing `diff` call.
-/

set_option autoImplicit false

deriving instance DecidableEq for Except

namespace Tomes

/-- JavaScript strings (property keys, type names) as plain character lists. -/
abbrev Str := List Char

/-! ### Decimal rendering and parsing of numeric keys

JavaScript coerces numeric array keys to canonical decimal strings (diff
chain keys are built with `'_'.concat(key)`), and `ArrayTome.set` recognises
canonical numeric strings via `parseInt` plus a `toString` round-trip check.
We model the canonical decimal form with `natStr`/`natParse`. -/

def digitChar (d : Nat) : Char := Char.ofNat (48 + d)

def natStrGo : Nat → Nat → List Char → List Char
  | 0, _, acc => acc
  | fuel + 1, n, acc =>
    if n < 10 then digitChar n :: acc
    else natStrGo fuel (n / 10) (digitChar (n % 10) :: acc)

def natStr (n : Nat) : Str := natStrGo (n + 1) n []

def digitVal (c : Char) : Option Nat :=
  if 48 ≤ c.toNat ∧ c.toNat ≤ 57 then some (c.toNat - 48) else none

def natParseGo : List Char → Nat → Option Nat
  | [], acc => some acc
  | c :: rest, acc =>
    match digitVal c with
    | some d => natParseGo rest (acc * 10 + d)
    | none => none

def natParse (s : Str) : Option Nat :=
  match s with
  | [] => none
  | c :: rest => natParseGo (c :: rest) 0

/-- The canonical-decimal check: a string is accepted as an array index only
if re-rendering the parsed number reproduces it (mirror of the source's
`okey.toString() !== key.toString()` guard around `parseInt`). -/
def natCanon (s : Str) : Option Nat :=
  match natParse s with
  | some n => if natStr n = s then some n else none
  | none => none

def intCanon (s : Str) : Option Int :=
  match s with
  | '-' :: rest =>
    match natCanon rest with
    | some n => if n = 0 then none else some (-(n : Int))
    | none => none
  | _ => (natCanon s).map (fun n => (n : Int))

/-- Property keys: an array index or an object field name. -/
inductive PKey where
  | i (n : Nat)
  | f (s : Str)
deriving DecidableEq, Repr

/-! ### Plain JavaScript values

`JVal` is the type of plain values: the values handed to `conjure`/`assign`/
`set`, the projections produced by `valueOf`, and also the diff records
(which are plain objects mapping operation names to payloads).  The `other`
constructor stands for values outside the seven supported variants
(functions, symbols, ...), carrying their `typeof` tag. -/

inductive JVal where
  | null
  | undef
  | jbool (b : Bool)
  | jnum (n : Int)
  | jstr (s : Str)
  | jarr (elems : List JVal)
  | jobj (fields : List (Str × JVal))
  | other (tag : Str)

mutual

def JVal.decEq : (a b : JVal) → Decidable (a = b)
  | .null, .null => isTrue rfl
  | .undef, .undef => isTrue rfl
  | .jbool a, .jbool b =>
    if h : a = b then isTrue (by rw [h]) else isFalse (fun he => h (by cases he; rfl))
  | .jnum a, .jnum b =>
    if h : a = b then isTrue (by rw [h]) else isFalse (fun he => h (by cases he; rfl))
  | .jstr a, .jstr b =>
    if h : a = b then isTrue (by rw [h]) else isFalse (fun he => h (by cases he; rfl))
  | .jarr a, .jarr b =>
    match decEqJL a b with
    | isTrue h => isTrue (by rw [h])
    | isFalse h => isFalse (fun he => h (by cases he; rfl))
  | .jobj a, .jobj b =>
    match decEqJF a b with
    | isTrue h => isTrue (by rw [h])
    | isFalse h => isFalse (fun he => h (by cases he; rfl))
  | .other a, .other b =>
    if h : a = b then isTrue (by rw [h]) else isFalse (fun he => h (by cases he; rfl))
  | .null, .undef => isFalse nofun
  | .null, .jbool _ => isFalse nofun
  | .null, .jnum _ => isFalse nofun
  | .null, .jstr _ => isFalse nofun
  | .null, .jarr _ => isFalse nofun
  | .null, .jobj _ => isFalse nofun
  | .null, .other _ => isFalse nofun
  | .undef, .null => isFalse nofun
  | .undef, .jbool _ => isFalse nofun
  | .undef, .jnum _ => isFalse nofun
  | .undef, .jstr _ => isFalse nofun
  | .undef, .jarr _ => isFalse nofun
  | .undef, .jobj _ => isFalse nofun
  | .undef, .other _ => isFalse nofun
  | .jbool _, .null => isFalse nofun
  | .jbool _, .undef => isFalse nofun
  | .jbool _, .jnum _ => isFalse nofun
  | .jbool _, .jstr _ => isFalse nofun
  | .jbool _, .jarr _ => isFalse nofun
  | .jbool _, .jobj _ => isFalse nofun
  | .jbool _, .other _ => isFalse nofun
  | .jnum _, .null => isFalse nofun
  | .jnum _, .undef => isFalse nofun
  | .jnum _, .jbool _ => isFalse nofun
  | .jnum _, .jstr _ => isFalse nofun
  | .jnum _, .jarr _ => isFalse nofun
  | .jnum _, .jobj _ => isFalse nofun
  | .jnum _, .other _ => isFalse nofun
  | .jstr _, .null => isFalse nofun
  | .jstr _, .undef => isFalse nofun
  | .jstr _, .jbool _ => isFalse nofun
  | .jstr _, .jnum _ => isFalse nofun
  | .jstr _, .jarr _ => isFalse nofun
  | .jstr _, .jobj _ => isFalse nofun
  | .jstr _, .other _ => isFalse nofun
  | .jarr _, .null => isFalse nofun
  | .jarr _, .undef => isFalse nofun
  | .jarr _, .jbool _ => isFalse nofun
  | .jarr _, .jnum _ => isFalse nofun
  | .jarr _, .jstr _ => isFalse nofun
  | .jarr _, .jobj _ => isFalse nofun
  | .jarr _, .other _ => isFalse nofun
  | .jobj _, .null => isFalse nofun
  | .jobj _, .undef => isFalse nofun
  | .jobj _, .jbool _ => isFalse nofun
  | .jobj _, .jnum _ => isFalse nofun
  | .jobj _, .jstr _ => isFalse nofun
  | .jobj _, .jarr _ => isFalse nofun
  | .jobj _, .other _ => isFalse nofun
  | .other _, .null => isFalse nofun
  | .other _, .undef => isFalse nofun
  | .other _, .jbool _ => isFalse nofun
  | .other _, .jnum _ => isFalse nofun
  | .other _, .jstr _ => isFalse nofun
  | .other _, .jarr _ => isFalse nofun
  | .other _, .jobj _ => isFalse nofun

def decEqJL : (a b : List JVal) → Decidable (a = b)
  | [], [] => isTrue rfl
  | [], _ :: _ => isFalse nofun
  | _ :: _, [] => isFalse nofun
  | x :: xs, y :: ys =>
    match JVal.decEq x y with
    | isTrue h1 =>
      match decEqJL xs ys with
      | isTrue h2 => isTrue (by rw [h1, h2])
      | isFalse h2 => isFalse (fun he => h2 (by cases he; rfl))
    | isFalse h1 => isFalse (fun he => h1 (by cases he; rfl))

def decEqJF : (a b : List (Str × JVal)) → Decidable (a = b)
  | [], [] => isTrue rfl
  | [], _ :: _ => isFalse nofun
  | _ :: _, [] => isFalse nofun
  | (k1, v1) :: xs, (k2, v2) :: ys =>
    if hk : k1 = k2 then
      match JVal.decEq v1 v2 with
      | isTrue h1 =>
        match decEqJF xs ys with
        | isTrue h2 => isTrue (by rw [hk, h1, h2])
        | isFalse h2 => isFalse (fun he => h2 (by cases he; rfl))
      | isFalse h1 => isFalse (fun he => h1 (by cases he; rfl))
    else isFalse (fun he => hk (by cases he; rfl))

end

instance : DecidableEq JVal := JVal.decEq

/-! Type names as produced by `Tome.typeOf` in the source. -/

def tyArr : Str := "array".data
def tyNull : Str := "null".data
def tyUndef : Str := "undefined".data
def tyBool : Str := "boolean".data
def tyNum : Str := "number".data
def tyStr : Str := "string".data
def tyObj : Str := "object".data

/-- `Tome.typeOf` on plain values. -/
def JVal.typeOf : JVal → Str
  | .jarr _ => tyArr
  | .null => tyNull
  | .undef => tyUndef
  | .jbool _ => tyBool
  | .jnum _ => tyNum
  | .jstr _ => tyStr
  | .jobj _ => tyObj
  | .other tag => tag

/-- The value types with an entry in the source's `tomeMap`. -/
def supportedTypes : List Str := [tyArr, tyBool, tyNull, tyNum, tyObj, tyStr, tyUndef]

/-! Association-list helpers for plain-object fields (JS object property
semantics: lookup and overwrite target the first occurrence and keep its
position, new keys are appended in insertion order). -/

def jfFind : List (Str × JVal) → Str → Option JVal
  | [], _ => none
  | (k, v) :: rest, s => if k = s then some v else jfFind rest s

def jfSet : List (Str × JVal) → Str → JVal → List (Str × JVal)
  | [], s, v => [(s, v)]
  | (k, w) :: rest, s, v => if k = s then (s, v) :: rest else (k, w) :: jfSet rest s v

/-! ### Tome nodes

Per-node bookkeeping shared by all node kinds: `__version__` (starts at 1)
and `__diff__` (the pending diff, `none` when clear). -/

structure Meta where
  version : Nat
  pd : Option JVal
deriving DecidableEq

def Meta.init : Meta := ⟨1, none⟩

/-- A Tome node.  Array children carry their stored `__key__` explicitly
(the pair's first component); an object child's `__key__` always equals the
property name it is stored under (the source updates them together), so it
is not duplicated.  An object property may hold `undefined` instead of a
child Tome (`none`). -/
inductive Tome where
  | tnull (m : Meta)
  | tundef (m : Meta)
  | tbool (b : Bool) (m : Meta)
  | tnum (n : Int) (m : Meta)
  | tstr (s : Str) (m : Meta)
  | tarr (elems : List (Nat × Tome)) (m : Meta)
  | tobj (fields : List (Str × Option Tome)) (m : Meta)

mutual

def Tome.decEq : (a b : Tome) → Decidable (a = b)
  | .tnull m1, .tnull m2 =>
    if h : m1 = m2 then isTrue (by rw [h]) else isFalse (fun he => h (by cases he; rfl))
  | .tundef m1, .tundef m2 =>
    if h : m1 = m2 then isTrue (by rw [h]) else isFalse (fun he => h (by cases he; rfl))
  | .tbool a m1, .tbool b m2 =>
    if h : a = b ∧ m1 = m2 then isTrue (by rw [h.1, h.2])
    else isFalse (fun he => h (by cases he; exact ⟨rfl, rfl⟩))
  | .tnum a m1, .tnum b m2 =>
    if h : a = b ∧ m1 = m2 then isTrue (by rw [h.1, h.2])
    else isFalse (fun he => h (by cases he; exact ⟨rfl, rfl⟩))
  | .tstr a m1, .tstr b m2 =>
    if h : a = b ∧ m1 = m2 then isTrue (by rw [h.1, h.2])
    else isFalse (fun he => h (by cases he; exact ⟨rfl, rfl⟩))
  | .tarr e1 m1, .tarr e2 m2 =>
    match decEqTL e1 e2 with
    | isTrue h =>
      if hm : m1 = m2 then isTrue (by rw [h, hm]) else isFalse (fun he => hm (by cases he; rfl))
    | isFalse h => isFalse (fun he => h (by cases he; rfl))
  | .tobj f1 m1, .tobj f2 m2 =>
    match decEqTF f1 f2 with
    | isTrue h =>
      if hm : m1 = m2 then isTrue (by rw [h, hm]) else isFalse (fun he => hm (by cases he; rfl))
    | isFalse h => isFalse (fun he => h (by cases he; rfl))
  | .tnull _, .tundef _ => isFalse nofun
  | .tnull _, .tbool _ _ => isFalse nofun
  | .tnull _, .tnum _ _ => isFalse nofun
  | .tnull _, .tstr _ _ => isFalse nofun
  | .tnull _, .tarr _ _ => isFalse nofun
  | .tnull _, .tobj _ _ => isFalse nofun
  | .tundef _, .tnull _ => isFalse nofun
  | .tundef _, .tbool _ _ => isFalse nofun
  | .tundef _, .tnum _ _ => isFalse nofun
  | .tundef _, .tstr _ _ => isFalse nofun
  | .tundef _, .tarr _ _ => isFalse nofun
  | .tundef _, .tobj _ _ => isFalse nofun
  | .tbool _ _, .tnull _ => isFalse nofun
  | .tbool _ _, .tundef _ => isFalse nofun
  | .tbool _ _, .tnum _ _ => isFalse nofun
  | .tbool _ _, .tstr _ _ => isFalse nofun
  | .tbool _ _, .tarr _ _ => isFalse nofun
  | .tbool _ _, .tobj _ _ => isFalse nofun
  | .tnum _ _, .tnull _ => isFalse nofun
  | .tnum _ _, .tundef _ => isFalse nofun
  | .tnum _ _, .tbool _ _ => isFalse nofun
  | .tnum _ _, .tstr _ _ => isFalse nofun
  | .tnum _ _, .tarr _ _ => isFalse nofun
  | .tnum _ _, .tobj _ _ => isFalse nofun
  | .tstr _ _, .tnull _ => isFalse nofun
  | .tstr _ _, .tundef _ => isFalse nofun
  | .tstr _ _, .tbool _ _ => isFalse nofun
  | .tstr _ _, .tnum _ _ => isFalse nofun
  | .tstr _ _, .tarr _ _ => isFalse nofun
  | .tstr _ _, .tobj _ _ => isFalse nofun
  | .tarr _ _, .tnull _ => isFalse nofun
  | .tarr _ _, .tundef _ => isFalse nofun
  | .tarr _ _, .tbool _ _ => isFalse nofun
  | .tarr _ _, .tnum _ _ => isFalse nofun
  | .tarr _ _, .tstr _ _ => isFalse nofun
  | .tarr _ _, .tobj _ _ => isFalse nofun
  | .tobj _ _, .tnull _ => isFalse nofun
  | .tobj _ _, .tundef _ => isFalse nofun
  | .tobj _ _, .tbool _ _ => isFalse nofun
  | .tobj _ _, .tnum _ _ => isFalse nofun
  | .tobj _ _, .tstr _ _ => isFalse nofun
  | .tobj _ _, .tarr _ _ => isFalse nofun

def decEqTL : (a b : List (Nat × Tome)) → Decidable (a = b)
  | [], [] => isTrue rfl
  | [], _ :: _ => isFalse nofun
  | _ :: _, [] => isFalse nofun
  | (k1, v1) :: xs, (k2, v2) :: ys =>
    if hk : k1 = k2 then
      match Tome.decEq v1 v2 with
      | isTrue h1 =>
        match decEqTL xs ys with
        | isTrue h2 => isTrue (by rw [hk, h1, h2])
        | isFalse h2 => isFalse (fun he => h2 (by cases he; rfl))
      | isFalse h1 => isFalse (fun he => h1 (by cases he; rfl))
    else isFalse (fun he => hk (by cases he; rfl))

def decEqTF : (a b : List (Str × Option Tome)) → Decidable (a = b)
  | [], [] => isTrue rfl
  | [], _ :: _ => isFalse nofun
  | _ :: _, [] => isFalse nofun
  | (k1, none) :: xs, (k2, none) :: ys =>
    if hk : k1 = k2 then
      match decEqTF xs ys with
      | isTrue h2 => isTrue (by rw [hk, h2])
      | isFalse h2 => isFalse (fun he => h2 (by cases he; rfl))
    else isFalse (fun he => hk (by cases he; rfl))
  | (k1, some v1) :: xs, (k2, some v2) :: ys =>
    if hk : k1 = k2 then
      match Tome.decEq v1 v2 with
      | isTrue h1 =>
        match decEqTF xs ys with
        | isTrue h2 => isTrue (by rw [hk, h1, h2])
        | isFalse h2 => isFalse (fun he => h2 (by cases he; rfl))
      | isFalse h1 => isFalse (fun he => h1 (by cases he; rfl))
    else isFalse (fun he => hk (by cases he; rfl))
  | (_, none) :: _, (_, some _) :: _ => isFalse (fun he => by simp at he)
  | (_, some _) :: _, (_, none) :: _ => isFalse (fun he => by simp at he)

end

instance : DecidableEq Tome := Tome.decEq

def Tome.meta : Tome → Meta
  | .tnull m => m
  | .tundef m => m
  | .tbool _ m => m
  | .tnum _ m => m
  | .tstr _ m => m
  | .tarr _ m => m
  | .tobj _ m => m

def Tome.withMeta : Tome → Meta → Tome
  | .tnull _, m => .tnull m
  | .tundef _, m => .tundef m
  | .tbool b _, m => .tbool b m
  | .tnum n _, m => .tnum n m
  | .tstr s _, m => .tstr s m
  | .tarr es _, m => .tarr es m
  | .tobj fs _, m => .tobj fs m

def Tome.version (t : Tome) : Nat := t.meta.version

def Tome.pd (t : Tome) : Option JVal := t.meta.pd

def Tome.setPd (t : Tome) (d : Option JVal) : Tome := t.withMeta ⟨t.meta.version, d⟩

def Tome.bumpVersion (t : Tome) : Tome := t.withMeta ⟨t.meta.version + 1, t.meta.pd⟩

/-- `typeOf` on nodes. -/
def Tome.typeOf : Tome → Str
  | .tnull _ => tyNull
  | .tundef _ => tyUndef
  | .tbool _ _ => tyBool
  | .tnum _ _ => tyNum
  | .tstr _ _ => tyStr
  | .tarr _ _ => tyArr
  | .tobj _ _ => tyObj

def Tome.isArr : Tome → Bool
  | .tarr _ _ => true
  | _ => false

mutual

/-- The deep plain-value projection of a node (the recursive reading of
`valueOf`: scalars yield their payload, arrays the list of element values,
objects their fields with `undefined` for undefined-valued properties). -/
def Tome.value : Tome → JVal
  | .tnull _ => .null
  | .tundef _ => .undef
  | .tbool b _ => .jbool b
  | .tnum n _ => .jnum n
  | .tstr s _ => .jstr s
  | .tarr es _ => .jarr (valueArr es)
  | .tobj fs _ => .jobj (valueObj fs)

def valueArr : List (Nat × Tome) → List JVal
  | [] => []
  | (_, c) :: rest => c.value :: valueArr rest

def valueObj : List (Str × Option Tome) → List (Str × JVal)
  | [] => []
  | (k, none) :: rest => (k, .undef) :: valueObj rest
  | (k, some c) :: rest => (k, c.value) :: valueObj rest

end

/-! Association-list helpers for object-Tome fields. -/

def tfFind : List (Str × Option Tome) → Str → Option (Option Tome)
  | [], _ => none
  | (k, v) :: rest, s => if k = s then some v else tfFind rest s

def tfSet : List (Str × Option Tome) → Str → Option Tome → List (Str × Option Tome)
  | [], s, v => [(s, v)]
  | (k, w) :: rest, s, v => if k = s then (s, v) :: rest else (k, w) :: tfSet rest s v

def tfRemove : List (Str × Option Tome) → Str → List (Str × Option Tome)
  | [], _ => []
  | (k, w) :: rest, s => if k = s then rest else (k, w) :: tfRemove rest s

/-! ### Errors

The error conditions raised by the source (`throw`s).  An `Except.error`
return models the exception propagating to the caller; every claim about an
error case concerns a check that precedes all mutation in the source, so no
partially-mutated state needs to be represented on error paths. -/

inductive TErr where
  | invalidValueType (tag : Str)
  | invalidElementType
  | undefinedKey (k : PKey)
  | notAChild (k : PKey)
  | invalidOp (k : Str)
  | notANumber
  | badArgs
deriving DecidableEq, Repr

/-! ### Events

Structural event requests (`SEv`) record what a node emitted, tagged with
the emitting node's path from the root; `Ev` is the external event stream,
where `add` carries the value looked up at emission time (`none` renders
JavaScript `undefined`). -/

inductive SEv where
  | add (path : List PKey) (key : PKey)
  | del (path : List PKey) (key : PKey)
  | ren (path : List PKey) (o n : Str)
  | destroy (path : List PKey)
deriving DecidableEq, Repr

inductive Ev where
  | add (path : List PKey) (key : PKey) (v : Option JVal)
  | del (path : List PKey) (key : PKey)
  | ren (path : List PKey) (o n : Str)
  | destroy (path : List PKey)
  | signal (path : List PKey) (v : JVal)
  | change (path : List PKey) (v : JVal)
  | diffe (path : List PKey) (d : JVal)
deriving DecidableEq

inductive EvKind where
  | add
  | del
  | ren
  | destroy
deriving DecidableEq, Repr

def SEv.kind : SEv → EvKind
  | .add _ _ => .add
  | .del _ _ => .del
  | .ren _ _ _ => .ren
  | .destroy _ => .destroy

def SEv.shift (p : List PKey) : SEv → SEv
  | .add q k => .add (p ++ q) k
  | .del q k => .del (p ++ q) k
  | .ren q o n => .ren (p ++ q) o n
  | .destroy q => .destroy (p ++ q)

def shiftEvs (p : List PKey) (l : List SEv) : List SEv := l.map (SEv.shift p)

/-- The root's `__buffer__`: one group per event kind, each created the
first time that kind is buffered and extended in place afterwards (the
JavaScript object's insertion-order key semantics). -/
abbrev Buffer := List (EvKind × List SEv)

def bufferPush (b : Buffer) (e : SEv) : Buffer :=
  match b with
  | [] => [(e.kind, [e])]
  | (k, items) :: rest =>
    if k = e.kind then (k, items ++ [e]) :: rest else (k, items) :: bufferPush rest e

/-! Child lookup and path navigation. -/

def childGet : Tome → PKey → Option Tome
  | .tarr es _, .i n => (es[n]?).map (fun e => e.2)
  | .tobj fs _, .f s =>
    match tfFind fs s with
    | some (some c) => some c
    | _ => none
  | _, _ => none

def lookupPath : Tome → List PKey → Option Tome
  | t, [] => some t
  | t, k :: rest =>
    match childGet t k with
    | some c => lookupPath c rest
    | none => none

/-- `this[key] === undefined ? undefined : this[key].valueOf()` (used when
emitting an `add` event): resolved against the current root. -/
def addValue (root : Tome) (p : List PKey) (k : PKey) : Option JVal :=
  match lookupPath root p with
  | some t => (childGet t k).map Tome.value
  | none => none

def SEv.emit (root : Tome) : SEv → Ev
  | .add p k => .add p k (addValue root p k)
  | .del p k => .del p k
  | .ren p o n => .ren p o n
  | .destroy p => .destroy p

/-! ### Construction (`Tome.conjure`)

Conjuring classifies the value, rejects unsupported types and `undefined`
outside an array element, and recursively conjures children.  A container's
own `add` events fire after all its children are assigned, in key order;
each child's internal `add` events fire while that child is conjured. -/

def arrAdds : Nat → List JVal → List SEv
  | _, [] => []
  | i, _ :: rest => .add [] (.i i) :: arrAdds (i + 1) rest

def objAdds : List (Str × JVal) → List SEv
  | [] => []
  | (k, _) :: rest => .add [] (.f k) :: objAdds rest

mutual

def conjure (pctx : Bool) : JVal → Except TErr (Tome × List SEv)
  | .null => .ok (.tnull .init, [])
  | .undef => if pctx then .ok (.tundef .init, []) else .error .invalidElementType
  | .jbool b => .ok (.tbool b .init, [])
  | .jnum n => .ok (.tnum n .init, [])
  | .jstr s => .ok (.tstr s .init, [])
  | .jarr l =>
    match conjureArr 0 l with
    | .ok (es, evs) => .ok (.tarr es .init, evs ++ arrAdds 0 l)
    | .error e => .error e
  | .jobj l =>
    match conjureObj l with
    | .ok (fs, evs) => .ok (.tobj fs .init, evs ++ objAdds l)
    | .error e => .error e
  | .other tag => .error (.invalidValueType tag)

def conjureArr (i : Nat) : List JVal → Except TErr (List (Nat × Tome) × List SEv)
  | [] => .ok ([], [])
  | v :: rest =>
    match conjure true v with
    | .ok (c, evs) =>
      match conjureArr (i + 1) rest with
      | .ok (cs, evs2) => .ok ((i, c) :: cs, shiftEvs [.i i] evs ++ evs2)
      | .error e => .error e
    | .error e => .error e

def conjureObj : List (Str × JVal) → Except TErr (List (Str × Option Tome) × List SEv)
  | [] => .ok ([], [])
  | (k, .undef) :: rest =>
    match conjureObj rest with
    | .ok (fs, evs) => .ok ((k, none) :: fs, evs)
    | .error e => .error e
  | (k, v) :: rest =>
    match conjure false v with
    | .ok (c, evs) =>
      match conjureObj rest with
      | .ok (fs, evs2) => .ok ((k, some c) :: fs, shiftEvs [.f k] evs ++ evs2)
      | .error e => .error e
    | .error e => .error e

end

/-! ### Destruction and reset -/

mutual

/-- `destroy` recurses into children first (post-order), then emits
`destroy` on the node itself. -/
def destroyEvs : Tome → List SEv
  | .tnull _ => [.destroy []]
  | .tundef _ => [.destroy []]
  | .tbool _ _ => [.destroy []]
  | .tnum _ _ => [.destroy []]
  | .tstr _ _ => [.destroy []]
  | .tarr es _ => destroyArr 0 es ++ [.destroy []]
  | .tobj fs _ => destroyObj fs ++ [.destroy []]

def destroyArr : Nat → List (Nat × Tome) → List SEv
  | _, [] => []
  | i, (_, c) :: rest => shiftEvs [.i i] (destroyEvs c) ++ destroyArr (i + 1) rest

def destroyObj : List (Str × Option Tome) → List SEv
  | [] => []
  | (_, none) :: rest => destroyObj rest
  | (k, some c) :: rest => shiftEvs [.f k] (destroyEvs c) ++ destroyObj rest

end

def arrDels : Nat → List (Nat × Tome) → List SEv
  | _, [] => []
  | i, _ :: rest => .del [] (.i i) :: arrDels (i + 1) rest

def objDels : List (Str × Option Tome) → List SEv
  | [] => []
  | (k, _) :: rest => .del [] (.f k) :: objDels rest

/-- `reset` destroys every child property (in key order), then emits `del`
for each deleted key (including undefined-valued object properties). -/
def resetEvs : Tome → List SEv
  | .tarr es _ => destroyArr 0 es ++ arrDels 0 es
  | .tobj fs _ => destroyObj fs ++ objDels fs
  | _ => []

/-! ### Local mutation operations

Each operation is given as a function of the target node producing the new
node, its structural events (paths relative to the node), and the diff
chains it initiates (`chains`), in call order.  When the diff originates at
a child (an existing child updated through `set`), `down` names that child.
The chain bookkeeping along the ancestor path — version bump, pending-diff
merge or immediate `signal`/`change`/`diff` emission at every node up to
the root — is applied uniformly by `runAt`/`applyLocal` below. -/

structure LOut where
  t : Tome
  sevs : List SEv
  down : Option PKey
  chains : List JVal
deriving DecidableEq

def kSet : Str := "set".data
def kAssign : Str := "assign".data
def kDel : Str := "del".data
def kInc : Str := "inc".data
def kPush : Str := "push".data
def kPop : Str := "pop".data
def kShift : Str := "shift".data
def kUnshift : Str := "unshift".data
def kSplice : Str := "splice".data
def kReverse : Str := "reverse".data
def kRename : Str := "rename".data
def kO : Str := "o".data
def kN : Str := "n".data

def chain1 (op : Str) (v : JVal) : JVal := .jobj [(op, v)]

/-- The container-transition part of `assign`: reset when either side is a
container, then reinitialise the node as the value's variant (keeping its
`__version__`/`__diff__` bookkeeping), recording an `assign` diff. -/
def assignReinit (pctx : Bool) (t : Tome) (v : JVal) : Except TErr LOut :=
  let rEvs :=
    if v.typeOf = tyArr ∨ v.typeOf = tyObj ∨ t.typeOf = tyArr ∨ t.typeOf = tyObj
    then resetEvs t else []
  match conjure pctx v with
  | .ok (t2, initEvs) => .ok ⟨t2.withMeta t.meta, rEvs ++ initEvs, none, [chain1 kAssign v]⟩
  | .error e => .error e

/-- `Tome.prototype.assign`: validates the value's type (and `undefined`
outside an array element) before touching anything; same-variant scalar
assignment is a no-op when the payload is unchanged. -/
def assignLocal (pctx : Bool) (t : Tome) (v : JVal) : Except TErr LOut :=
  if v.typeOf ∈ supportedTypes then
    if v = .undef ∧ pctx = false then .error .invalidElementType
    else if v.typeOf = t.typeOf then
      match t, v with
      | .tbool b m, .jbool nb =>
        if b = nb then .ok ⟨.tbool b m, [], none, []⟩
        else .ok ⟨.tbool nb m, [], none, [chain1 kAssign v]⟩
      | .tnum a m, .jnum na =>
        if a = na then .ok ⟨.tnum a m, [], none, []⟩
        else .ok ⟨.tnum na m, [], none, [chain1 kAssign v]⟩
      | .tstr a m, .jstr ns =>
        if a = ns then .ok ⟨.tstr a m, [], none, []⟩
        else .ok ⟨.tstr ns m, [], none, [chain1 kAssign v]⟩
      | .tnull m, _ => .ok ⟨.tnull m, [], none, []⟩
      | .tundef m, _ => .ok ⟨.tundef m, [], none, []⟩
      | t, v => assignReinit pctx t v
    else assignReinit pctx t v
  else .error (.invalidValueType v.typeOf)

/-- The object branch of `Tome.prototype.set` (after any reset): new keys
are conjured with an `add` event, keys holding `undefined` are conjured
without one, and existing child Tomes are updated via `assign` on the child
(the diff then originates at the child). -/
def tomeSetObj (fs : List (Str × Option Tome)) (m : Meta) (rEvs : List SEv) (k : Str)
    (v : JVal) : Except TErr LOut :=
  match tfFind fs k with
  | none =>
    match conjure false v with
    | .ok (c, cEvs) =>
      .ok ⟨.tobj (tfSet fs k (some c)) m,
        rEvs ++ shiftEvs [.f k] cEvs ++ [.add [] (.f k)], none,
        [chain1 kSet (.jobj [(k, v)])]⟩
    | .error e => .error e
  | some none =>
    match conjure false v with
    | .ok (c, cEvs) =>
      .ok ⟨.tobj (tfSet fs k (some c)) m, rEvs ++ shiftEvs [.f k] cEvs, none,
        [chain1 kSet (.jobj [(k, v)])]⟩
    | .error e => .error e
  | some (some child) =>
    match assignLocal false child v with
    | .ok lo =>
      .ok ⟨.tobj (tfSet fs k (some lo.t)) m, rEvs ++ shiftEvs [.f k] lo.sevs,
        some (.f k), lo.chains⟩
    | .error e => .error e

/-- `Tome.prototype.set`: assigning `undefined` only affects object Tomes;
a non-object target is first reset and turned into an (empty) object. -/
def tomeSet (t : Tome) (k : Str) (v : JVal) : Except TErr LOut :=
  if v = .undef then
    match t with
    | .tobj fs m =>
      .ok ⟨.tobj (tfSet fs k none) m, [], none, [chain1 kSet (.jobj [(k, .undef)])]⟩
    | _ => .ok ⟨t, [], none, []⟩
  else
    match t with
    | .tobj fs m => tomeSetObj fs m [] k v
    | _ => tomeSetObj [] t.meta (resetEvs t) k v

/-- `ArrayTome.prototype.set`: canonical numeric keys address elements
(negative: no-op; out of range: back-fill with undefined elements); other
keys fall through to `Tome.prototype.set`. -/
def arrSet (es : List (Nat × Tome)) (m : Meta) (k : Str) (v : JVal) : Except TErr LOut :=
  match intCanon k with
  | none => tomeSet (.tarr es m) k v
  | some ki =>
    if ki < 0 then .ok ⟨.tarr es m, [], none, []⟩
    else
      if es.length ≤ ki.toNat then
        match conjure true v with
        | .ok (c, cEvs) =>
          .ok ⟨.tarr (es ++ (List.range (ki.toNat - es.length)).map
                  (fun j => ((es.length + j : Nat), Tome.tundef Meta.init)) ++ [(ki.toNat, c)]) m,
            shiftEvs [.i ki.toNat] cEvs ++ [.add [] (.i ki.toNat)]
              ++ (List.range (ki.toNat - es.length)).map
                  (fun j => SEv.add [] (.i (es.length + j))),
            none, [chain1 kSet (.jobj [(natStr ki.toNat, v)])]⟩
        | .error e => .error e
      else
        match es[ki.toNat]? with
        | some (sk, child) =>
          match assignLocal true child v with
          | .ok lo =>
            .ok ⟨.tarr (es.set ki.toNat (sk, lo.t)) m, shiftEvs [.i ki.toNat] lo.sevs,
              some (.i ki.toNat), lo.chains⟩
          | .error e => .error e
        | none => .ok ⟨.tarr es m, [], none, []⟩

def setLocal (t : Tome) (k : Str) (v : JVal) : Except TErr LOut :=
  match t with
  | .tarr es m => arrSet es m k v
  | _ => tomeSet t k v

/-- `del`: on an object the key must reference a child Tome, which is
removed and destroyed; on an array the element is replaced by a fresh
undefined element and the old one is NOT destroyed (`ArrayTome.del`). -/
def delLocal (t : Tome) (k : PKey) : Except TErr LOut :=
  match t, k with
  | .tarr es m, .i n =>
    if n < es.length then
      .ok ⟨.tarr (es.set n (n, .tundef .init)) m, [.del [] (.i n)], none,
        [chain1 kDel (.jnum n)]⟩
    else .error (.undefinedKey k)
  | .tarr _ _, .f s => .error (.undefinedKey (.f s))
  | .tobj fs m, .f s =>
    match tfFind fs s with
    | none => .error (.undefinedKey k)
    | some none => .error (.notAChild k)
    | some (some child) =>
      .ok ⟨.tobj (tfRemove fs s) m,
        shiftEvs [.f s] (destroyEvs child) ++ [.del [] (.f s)], none,
        [chain1 kDel (.jstr s)]⟩
  | .tobj _ _, .i n => .error (.undefinedKey (.i n))
  | _, _ => .error (.undefinedKey k)

/-- `NumberTome.prototype.inc`: numeric check on the argument, zero is a
no-op producing no diff. -/
def incLocal (t : Tome) (v : JVal) : Except TErr LOut :=
  match t with
  | .tnum a m =>
    match v with
    | .jnum d =>
      if d = 0 then .ok ⟨.tnum a m, [], none, []⟩
      else .ok ⟨.tnum (a + d) m, [], none, [chain1 kInc (.jnum d)]⟩
    | _ => .error .notANumber
  | _ => .error .notANumber

/-- Conjure a run of new elements with consecutive keys starting at
`start`, each followed by its `add` event (used by `push` and the insertion
part of `splice`). -/
def conjureSeq (start : Nat) : List JVal → Except TErr (List (Nat × Tome) × List SEv)
  | [] => .ok ([], [])
  | v :: rest =>
    match conjure true v with
    | .ok (c, cEvs) =>
      match conjureSeq (start + 1) rest with
      | .ok (cs, evs2) =>
        .ok ((start, c) :: cs, (shiftEvs [.i start] cEvs ++ [.add [] (.i start)]) ++ evs2)
      | .error e => .error e
    | .error e => .error e

def pushLocal (es : List (Nat × Tome)) (m : Meta) (vs : List JVal) : Except TErr LOut :=
  match vs with
  | [] => .ok ⟨.tarr es m, [], none, []⟩
  | _ =>
    match conjureSeq es.length vs with
    | .ok (cs, evs) => .ok ⟨.tarr (es ++ cs) m, evs, none, [chain1 kPush (.jarr vs)]⟩
    | .error e => .error e

def popLocal (es : List (Nat × Tome)) (m : Meta) : LOut :=
  match es.getLast? with
  | none => ⟨.tarr es m, [], none, []⟩
  | some (_, o) =>
    ⟨.tarr es.dropLast m,
      shiftEvs [.i (es.length - 1)] (destroyEvs o) ++ [.del [] (.i (es.length - 1))],
      none, [chain1 kPop (.jnum 1)]⟩

def reindexFrom : Nat → List (Nat × Tome) → List (Nat × Tome)
  | _, [] => []
  | i, (_, c) :: rest => (i, c) :: reindexFrom (i + 1) rest

def shiftLocal (es : List (Nat × Tome)) (m : Meta) : LOut :=
  match es with
  | [] => ⟨.tarr es m, [], none, []⟩
  | (_, o) :: rest =>
    ⟨.tarr (reindexFrom 0 rest) m,
      shiftEvs [.i 0] (destroyEvs o) ++ [.del [] (.i 0)], none,
      [chain1 kShift (.jnum 1)]⟩

def unshiftGo : List JVal → Except TErr (List Tome × List (List SEv))
  | [] => .ok ([], [])
  | v :: rest =>
    match conjure true v with
    | .ok (c, cEvs) =>
      match unshiftGo rest with
      | .ok (cs, evss) => .ok (c :: cs, cEvs :: evss)
      | .error e => .error e
    | .error e => .error e

/-- `unshift`: the arguments are conjured in reverse order, then every
element's key is reindexed, then one `add` per inserted index. -/
def unshiftLocal (es : List (Nat × Tome)) (m : Meta) (vs : List JVal) : Except TErr LOut :=
  match vs with
  | [] => .ok ⟨.tarr es m, [], none, []⟩
  | _ =>
    match unshiftGo vs with
    | .ok (cs, evss) =>
      let conjEvs := ((evss.enum).reverse.map (fun p => shiftEvs [.i p.1] p.2)).flatten
      let adds := (List.range vs.length).map (fun i => SEv.add [] (.i i))
      .ok ⟨.tarr (reindexFrom 0 (cs.map (fun c => ((0 : Nat), c)) ++ es)) m,
        conjEvs ++ adds, none, [chain1 kUnshift (.jarr vs)]⟩
    | .error e => .error e

def reverseLocal (es : List (Nat × Tome)) (m : Meta) : LOut :=
  ⟨.tarr (reindexFrom 0 es.reverse) m, [], none, [chain1 kReverse (.jnum 1)]⟩

/-- `ArrayTome.prototype.splice`: clamps the start index, removes and
destroys `remove` elements there, conjures the new items in place, and
records one `splice` diff carrying the clamped index, the raw remove count
and the items.  Surviving elements after the region keep their old stored
`__key__` (the source omits the reindex here that `shift`/`unshift`/
`reverse`/`sort` perform).  `spliceIx` is the clamped start index
(`spliceIndex` in the source). -/
def spliceIx (start : Int) (len : Nat) : Nat :=
  if 0 ≤ start then min start.toNat len else len - (-start).toNat

def spliceLocal (es : List (Nat × Tome)) (m : Meta) (start remove : Int)
    (items : List JVal) : Except TErr LOut :=
  match conjureSeq (spliceIx start es.length) items with
  | .ok (ins, insEvs) =>
    .ok ⟨.tarr (es.take (spliceIx start es.length) ++ ins ++
          es.drop (spliceIx start es.length + min remove.toNat (es.length - spliceIx start es.length))) m,
      ((((es.drop (spliceIx start es.length)).take
            (min remove.toNat (es.length - spliceIx start es.length))).enum).map (fun p =>
          shiftEvs [.i (spliceIx start es.length + p.1)] (destroyEvs p.2.2) ++
            [SEv.del [] (.i (spliceIx start es.length + p.1))])).flatten ++ insEvs,
      none,
      if remove ≠ 0 ∨ items ≠ [] then
        [chain1 kSplice (.jarr (.jnum (spliceIx start es.length : Int) :: .jnum remove :: items))]
      else []⟩
  | .error e => .error e

/-- One `{o, n}` pair of `ObjectTome.prototype.rename`: the old key must
exist; an occupant of the new key is `del`eted first (conflict resolution),
then the child moves to the new key, with a `rename` event and diff. -/
def renamePairStep (t : Tome) (o n : Str) : Except TErr LOut :=
  match t with
  | .tobj fs m =>
    if (tfFind fs o).isNone then .error (.undefinedKey (.f o))
    else
      match (if (tfFind fs n).isSome then delLocal (.tobj fs m) (.f n)
             else .ok ⟨.tobj fs m, [], none, []⟩) with
      | .ok lo =>
        match lo.t with
        | .tobj fs2 m2 =>
          match tfFind fs2 o with
          | some oc =>
            .ok ⟨.tobj (tfRemove (tfSet fs2 n oc) o) m2,
              lo.sevs ++ [.ren [] o n], none,
              lo.chains ++ [chain1 kRename (.jobj [(kO, .jstr o), (kN, .jstr n)])]⟩
          | none => .error (.undefinedKey (.f o))
        | _ => .error (.undefinedKey (.f o))
      | .error e => .error e
  | _ => .error .badArgs

/-! ### The mutation language used to state sequence-level properties -/

inductive Mut where
  | assign (v : JVal)
  | set (k : Str) (v : JVal)
  | del (k : PKey)
  | inc (n : Int)
  | push (vs : List JVal)
  | pop
  | shift
  | unshift (vs : List JVal)
  | splice (start remove : Int) (items : List JVal)
  | reverse
  | renameObj (o n : Str)
deriving DecidableEq

def mutOp : Mut → Bool → Tome → Except TErr LOut
  | .assign v, pctx, t => assignLocal pctx t v
  | .set k v, _, t => setLocal t k v
  | .del k, _, t => delLocal t k
  | .inc n, _, t => incLocal t (.jnum n)
  | .push vs, _, .tarr es m => pushLocal es m vs
  | .pop, _, .tarr es m => .ok (popLocal es m)
  | .shift, _, .tarr es m => .ok (shiftLocal es m)
  | .unshift vs, _, .tarr es m => unshiftLocal es m vs
  | .splice s r its, _, .tarr es m => spliceLocal es m s r its
  | .reverse, _, .tarr es m => .ok (reverseLocal es m)
  | .renameObj o n, _, t => renamePairStep t o n
  | _, _, _ => .error .badArgs

/-! ### The diff chain (`Tome.prototype.diff`)

A call `diff(op, val)` at a node increments the node's version, merges the
chain into the node's pending diff (same-name entries accumulate: a second
occurrence wraps the single payload into a list, later ones are pushed into
the existing list payload), then either emits `signal`/`change`/`diff`
immediately (when the root has no buffer) or leaves the merged record
pending.  The chain is then wrapped under `'_' + __key__` and forwarded to
the parent, up to the root. -/

def emptyRec : JVal := .jobj []

def getRec : Option JVal → JVal
  | some d => d
  | none => emptyRec

def diffMergeField (d : JVal) (k : Str) (v : JVal) : JVal :=
  match d with
  | .jobj df =>
    match jfFind df k with
    | some (.jarr l) => .jobj (jfSet df k (.jarr (l ++ [v])))
    | some old => .jobj (jfSet df k (.jarr [old, v]))
    | none => .jobj (jfSet df k v)
  | _ => d

def diffMergeFields (d : JVal) : List (Str × JVal) → JVal
  | [] => d
  | (k, v) :: rest => diffMergeFields (diffMergeField d k v) rest

def diffMergeChain (d c : JVal) : JVal :=
  match c with
  | .jobj cf => diffMergeFields d cf
  | _ => d

/-- One `diff` call's effect at one node of the chain.  When unpaused the
merged record is emitted but only written back if a pending diff already
existed (the source merges into the `__diff__` object in place); when
paused it is stored as the pending diff and nothing is emitted. -/
def chainNode (paused : Bool) (path : List PKey) (t : Tome) (c : JVal) : Tome × List Ev :=
  let t1 := t.bumpVersion
  let merged := diffMergeChain (getRec t1.pd) c
  if paused then (t1.setPd (some merged), [])
  else
    let t2 := if t1.pd.isSome then t1.setPd (some merged) else t1
    (t2, [.signal path t2.value, .change path t2.value, .diffe path merged])

def chainNodeAll (paused : Bool) (path : List PKey) (t : Tome) :
    List JVal → Tome × List Ev
  | [] => (t, [])
  | c :: rest =>
    let (t1, evs1) := chainNode paused path t c
    let (t2, evs2) := chainNodeAll paused path t1 rest
    (t2, evs1 ++ evs2)

/-- The chain link for a child: `'_' + __key__` (the child's stored key)
together with the child node. -/
def childLink : Tome → PKey → Option (Str × Tome)
  | .tarr es _, .i n => (es[n]?).map (fun e => ('_' :: natStr e.1, e.2))
  | .tobj fs _, .f s =>
    match tfFind fs s with
    | some (some c) => some ('_' :: s, c)
    | _ => none
  | _, _ => none

def setChild : Tome → PKey → Tome → Tome
  | .tarr es m, .i n, c =>
    match es[n]? with
    | some (sk, _) => .tarr (es.set n (sk, c)) m
    | none => .tarr es m
  | .tobj fs m, .f s, c => .tobj (tfSet fs s (some c)) m
  | t, _, _ => t

/-- Post-processing of a local operation at its target node: when the diff
originated at a child (`down`), run the chain at that child first, nest the
chains under the child's link key, then run them at the target. -/
def applyLocal (paused : Bool) (path : List PKey) (lo : LOut) :
    Tome × List SEv × List Ev × List JVal :=
  match lo.down with
  | none =>
    let (t2, cevs) := chainNodeAll paused path lo.t lo.chains
    (t2, shiftEvs path lo.sevs, cevs, lo.chains)
  | some dk =>
    match childLink lo.t dk with
    | some (lk, c) =>
      let (c2, cevs1) := chainNodeAll paused (path ++ [dk]) c lo.chains
      let t2 := setChild lo.t dk c2
      let nested := lo.chains.map (fun ch => JVal.jobj [(lk, ch)])
      let (t3, cevs2) := chainNodeAll paused path t2 nested
      (t3, shiftEvs path lo.sevs, cevs1 ++ cevs2, nested)
    | none => (lo.t, shiftEvs path lo.sevs, [], [])

/-- Apply a local operation at the node addressed by `p` inside `t`,
propagating the diff chain through every ancestor on the way back up.
Returns the new subtree, the structural events, the chain emissions, and
the chains as seen at this subtree's root. -/
def runAt (paused : Bool) (path : List PKey) (pctx : Bool) (t : Tome) :
    List PKey → (Bool → Tome → Except TErr LOut) →
    Except TErr (Tome × List SEv × List Ev × List JVal)
  | [], op =>
    match op pctx t with
    | .ok lo => .ok (applyLocal paused path lo)
    | .error e => .error e
  | k :: rest, op =>
    match childGet t k with
    | some c =>
      match runAt paused (path ++ [k]) t.isArr c rest op with
      | .ok (sub, sevs, cevs, chains) =>
        let t2 := setChild t k sub
        match childLink t2 k with
        | some (lk, _) =>
          let nested := chains.map (fun ch => JVal.jobj [(lk, ch)])
          let (t3, cevs2) := chainNodeAll paused path t2 nested
          .ok (t3, sevs, cevs ++ cevs2, nested)
        | none => .ok (t2, sevs, cevs, [])
      | .error e => .error e
    | none => .error (.undefinedKey k)

/-! ### Tree state, pause, mutation driver -/

/-- A whole tree: the root node plus the root's `__buffer__` (present iff
the tree is paused). -/
structure TState where
  root : Tome
  buffer : Option Buffer
deriving DecidableEq

/-- `pause`: creates an empty buffer on the root and returns `false` when
freshly paused; a no-op returning `true` when already paused. -/
def pause (st : TState) : TState × Bool :=
  match st.buffer with
  | some b => ({ root := st.root, buffer := some b }, true)
  | none => ({ root := st.root, buffer := some [] }, false)

/-- Perform one mutation at path `p`.  Structural events go to the buffer
when paused and are emitted immediately otherwise; the returned `List JVal`
is the list of diff records as merged at the root (the payloads of the
root's `diff` events when unpaused). -/
def applyMut (st : TState) (p : List PKey) (m : Mut) :
    Except TErr (TState × List Ev × List JVal) :=
  match runAt st.buffer.isSome [] false st.root p (mutOp m) with
  | .ok (root2, sevs, cevs, recs) =>
    match st.buffer with
    | some b => .ok ({ root := root2, buffer := some (sevs.foldl bufferPush b) }, [], recs)
    | none => .ok ({ root := root2, buffer := none }, sevs.map (SEv.emit root2) ++ cevs, recs)
  | .error e => .error e

def applySeq : TState → List (List PKey × Mut) → Except TErr (TState × List JVal)
  | st, [] => .ok (st, [])
  | st, (p, m) :: rest =>
    match applyMut st p m with
    | .ok (st2, _evs, recs) =>
      match applySeq st2 rest with
      | .ok (st3, recs2) => .ok (st3, recs ++ recs2)
      | .error e => .error e
    | .error e => .error e

/-! ### `notify`

On a node with a pending diff: emit `signal`, `change`, `diff`, clear the
pending diff, then recurse into every child that itself has a pending diff
(children without one are skipped without recursing).  A node with no
pending diff returns immediately and emits nothing. -/

mutual

def notify (path : List PKey) (t : Tome) : Tome × List Ev :=
  match t with
  | .tarr es ⟨ver, some d⟩ =>
    let v := Tome.value (.tarr es ⟨ver, some d⟩)
    let (es2, evs) := notifyArr path 0 es
    (.tarr es2 ⟨ver, none⟩, [.signal path v, .change path v, .diffe path d] ++ evs)
  | .tobj fs ⟨ver, some d⟩ =>
    let v := Tome.value (.tobj fs ⟨ver, some d⟩)
    let (fs2, evs) := notifyObj path fs
    (.tobj fs2 ⟨ver, none⟩, [.signal path v, .change path v, .diffe path d] ++ evs)
  | .tnull ⟨ver, some d⟩ =>
    (.tnull ⟨ver, none⟩, [.signal path .null, .change path .null, .diffe path d])
  | .tundef ⟨ver, some d⟩ =>
    (.tundef ⟨ver, none⟩, [.signal path .undef, .change path .undef, .diffe path d])
  | .tbool b ⟨ver, some d⟩ =>
    (.tbool b ⟨ver, none⟩, [.signal path (.jbool b), .change path (.jbool b), .diffe path d])
  | .tnum n ⟨ver, some d⟩ =>
    (.tnum n ⟨ver, none⟩, [.signal path (.jnum n), .change path (.jnum n), .diffe path d])
  | .tstr s ⟨ver, some d⟩ =>
    (.tstr s ⟨ver, none⟩, [.signal path (.jstr s), .change path (.jstr s), .diffe path d])
  | t => (t, [])

def notifyArr (path : List PKey) : Nat → List (Nat × Tome) → List (Nat × Tome) × List Ev
  | _, [] => ([], [])
  | i, (sk, c) :: rest =>
    let (c2, evs1) := if c.pd.isSome then notify (path ++ [.i i]) c else (c, [])
    let (rest2, evs2) := notifyArr path (i + 1) rest
    ((sk, c2) :: rest2, evs1 ++ evs2)

def notifyObj (path : List PKey) :
    List (Str × Option Tome) → List (Str × Option Tome) × List Ev
  | [] => ([], [])
  | (k, none) :: rest =>
    let (rest2, evs2) := notifyObj path rest
    ((k, none) :: rest2, evs2)
  | (k, some c) :: rest =>
    let (c2, evs1) := if c.pd.isSome then notify (path ++ [.f k]) c else (c, [])
    let (rest2, evs2) := notifyObj path rest
    ((k, some c2) :: rest2, evs1 ++ evs2)

end

/-- `resume`: replays the buffered structural events, one kind-group after
another in the buffer's key order, clears the buffer, and performs a single
`notify` walk from the root.  Returns `false` when there is no buffer. -/
def resume (st : TState) : TState × List Ev × Bool :=
  match st.buffer with
  | none => (st, [], false)
  | some groups =>
    let bevs := (groups.map (fun g => g.2)).flatten.map (SEv.emit st.root)
    let (root2, nevs) := notify [] st.root
    ({ root := root2, buffer := none }, bevs ++ nevs, true)

/-! ### Diff replay (`merge`)

`merge` interprets a diff record against a node: the record's keys are
processed in order, recognised operation names dispatch to the matching
mutation (per node variant), keys starting with `'_'` recurse into the
named child, and each variant's `merge` falls through to
`Tome.prototype.merge` with the WHOLE record for keys its own switch does
not recognise (exactly as `Tome.prototype.merge.apply(this, arguments)`
does).  Each replayed mutation drives the same diff chain bookkeeping as a
direct mutation; chains reaching this node are returned to the caller,
which nests and continues them upward. -/

structure MOut where
  t : Tome
  sevs : List SEv
  cevs : List Ev
  chains : List JVal
deriving DecidableEq

def mcons (one more : MOut) : MOut :=
  ⟨more.t, one.sevs ++ more.sevs, one.cevs ++ more.cevs, one.chains ++ more.chains⟩

/-- Run a local operation's result through the chain bookkeeping at this
node (shared with `runAt`'s leaf case). -/
def mOfL (paused : Bool) (path : List PKey) (r : Except TErr LOut) : Except TErr MOut :=
  match r with
  | .ok lo =>
    let (t2, sevs, cevs, chains) := applyLocal paused path lo
    .ok ⟨t2, sevs, cevs, chains⟩
  | .error e => .error e

def mjoin (paused : Bool) (path : List PKey) (acc : MOut) (r : Except TErr LOut) : Except TErr MOut :=
  match mOfL paused path r with
  | .ok o => .ok (mcons acc o)
  | .error e => .error e

/-- `for (i = 0; i < val; i += 1) this.pop()` — each iteration is a
separate mutation with its own diff. -/
def popTimes (paused : Bool) (path : List PKey) (acc : MOut) : Nat → Except TErr MOut
  | 0 => .ok acc
  | n + 1 =>
    match acc.t with
    | .tarr es m =>
      match mjoin paused path acc (.ok (popLocal es m)) with
      | .ok acc2 => popTimes paused path acc2 n
      | .error e => .error e
    | _ => .error .badArgs

def shiftTimes (paused : Bool) (path : List PKey) (acc : MOut) : Nat → Except TErr MOut
  | 0 => .ok acc
  | n + 1 =>
    match acc.t with
    | .tarr es m =>
      match mjoin paused path acc (.ok (shiftLocal es m)) with
      | .ok acc2 => shiftTimes paused path acc2 n
      | .error e => .error e
    | _ => .error .badArgs

/-- `for (k in val) this.set(k, val[k])` over an object payload. -/
def mergeSetF (paused : Bool) (path : List PKey) (acc : MOut) :
    List (Str × JVal) → Except TErr MOut
  | [] => .ok acc
  | (k, v) :: rest =>
    match mjoin paused path acc (setLocal acc.t k v) with
    | .ok acc2 => mergeSetF paused path acc2 rest
    | .error e => .error e

/-- The same loop over an array payload (`for..in` yields the indices). -/
def mergeSetArr (paused : Bool) (path : List PKey) (acc : MOut) :
    Nat → List JVal → Except TErr MOut
  | _, [] => .ok acc
  | i, v :: rest =>
    match mjoin paused path acc (setLocal acc.t (natStr i) v) with
    | .ok acc2 => mergeSetArr paused path acc2 (i + 1) rest
    | .error e => .error e

def renameListF (paused : Bool) (path : List PKey) (acc : MOut) :
    List (Str × Str) → Except TErr MOut
  | [] => .ok acc
  | (o, n) :: rest =>
    match mjoin paused path acc (renamePairStep acc.t o n) with
    | .ok acc2 => renameListF paused path acc2 rest
    | .error e => .error e

def renamePairOf : JVal → Option (Str × Str)
  | .jobj fs =>
    match jfFind fs kO, jfFind fs kN with
    | some (.jstr o), some (.jstr n) => some (o, n)
    | _, _ => none
  | _ => none

/-- `ObjectTome.rename` argument forms accepted through `merge`: a single
`{o, n}` object or a list of them.  (The legacy two-string form cannot
arrive through a one-argument `merge` call.) -/
def renamePairsOf : JVal → Option (List (Str × Str))
  | .jarr l => l.mapM renamePairOf
  | v => (renamePairOf v).map (fun p => [p])

def arrPairOf : JVal → Option (Nat × Nat)
  | .jobj fs =>
    match jfFind fs kO, jfFind fs kN with
    | some (.jnum o), some (.jnum n) =>
      if 0 ≤ o ∧ 0 ≤ n then some (o.toNat, n.toNat) else none
    | _, _ => none
  | _ => none

def arrRenameKeys : List (Nat × Tome) → List (Nat × Nat) → Option (List (Nat × Tome))
  | es, [] => some es
  | es, (o, n) :: rest =>
    match es[o]? with
    | some (_, c) => arrRenameKeys (es.set o (n, c)) rest
    | none => none

/-- `ArrayTome.prototype.rename`: reassign the stored keys named by the
`{o, n}` pairs (indexing the backing array by `o`), then sort the backing
array by stored key. -/
def arrRenameLocal (es : List (Nat × Tome)) (m : Meta) (pairs : List (Nat × Nat)) :
    Except TErr LOut :=
  match arrRenameKeys es pairs with
  | some es2 =>
    .ok ⟨.tarr (es2.mergeSort (fun a b => a.1 ≤ b.1)) m, [], none,
      [chain1 kRename (.jarr (pairs.map (fun p =>
        JVal.jobj [(kO, .jnum (p.1 : Int)), (kN, .jnum (p.2 : Int))])))]⟩
  | none => .error .badArgs

def spliceArgsOf : JVal → Option (Int × Int × List JVal)
  | .jarr (.jnum s :: .jnum r :: rest) => some (s, r, rest)
  | _ => none

theorem sizeOf_tail_le (a : Str × JVal) (l : List (Str × JVal)) :
    sizeOf l ≤ sizeOf (a :: l) := by
  simp only [List.cons.sizeOf_spec]; omega

theorem sizeOf_snd_lt (k : Str) (v : JVal) (l : List (Str × JVal)) :
    sizeOf v < sizeOf ((k, v) :: l) := by
  simp only [List.cons.sizeOf_spec, Prod.mk.sizeOf_spec]; omega

mutual

def mergeDispatch (paused : Bool) (path : List PKey) (pctx : Bool) (t : Tome) (r : JVal) :
    Except TErr MOut :=
  match r with
  | .jobj rf =>
    match t with
    | .tarr es m => mergeArrF paused path pctx (.tarr es m) rf rf (le_refl _)
    | .tobj fs m => mergeObjF paused path pctx (.tobj fs m) rf rf (le_refl _)
    | .tnum n m => mergeNumF paused path pctx (.tnum n m) rf rf (le_refl _)
    | t => mergeTomeF paused path pctx t rf rf (le_refl _)
  | _ => .ok ⟨t, [], [], []⟩
termination_by (sizeOf r, 3, 0)

def mergeArrF (paused : Bool) (path : List PKey) (pctx : Bool) (t : Tome)
    (whole : List (Str × JVal)) (fs : List (Str × JVal))
    (hw : sizeOf fs ≤ sizeOf whole) : Except TErr MOut :=
  match fs with
  | [] => .ok ⟨t, [], [], []⟩
  | (k, v) :: rest =>
    let one : Except TErr MOut :=
      if k = kDel then
        match v with
        | .jnum n =>
          if 0 ≤ n then mOfL paused path (delLocal t (.i n.toNat)) else .error .badArgs
        | .jstr s => mOfL paused path (delLocal t (.f s))
        | _ => .error .badArgs
      else if k = kPop then
        match v with
        | .jnum n => popTimes paused path ⟨t, [], [], []⟩ n.toNat
        | _ => .ok ⟨t, [], [], []⟩
      else if k = kPush then
        match t, v with
        | .tarr es m, .jarr l => mOfL paused path (pushLocal es m l)
        | _, _ => .error .badArgs
      else if k = kRename then
        match t, v with
        | .tarr es m, .jarr l =>
          match l.mapM arrPairOf with
          | some pairs => mOfL paused path (arrRenameLocal es m pairs)
          | none => .error .badArgs
        | _, _ => .error .badArgs
      else if k = kReverse then
        match t with
        | .tarr es m => mOfL paused path (.ok (reverseLocal es m))
        | _ => .error .badArgs
      else if k = kShift then
        match v with
        | .jnum n => shiftTimes paused path ⟨t, [], [], []⟩ n.toNat
        | _ => .ok ⟨t, [], [], []⟩
      else if k = kSplice then
        match t, spliceArgsOf v with
        | .tarr es m, some (s, r2, its) => mOfL paused path (spliceLocal es m s r2 its)
        | _, _ => .error .badArgs
      else if k = kUnshift then
        match t, v with
        | .tarr es m, .jarr l => mOfL paused path (unshiftLocal es m l)
        | _, _ => .error .badArgs
      else mergeTomeF paused path pctx t whole whole (le_refl _)
    match one with
    | .ok o =>
      match mergeArrF paused path pctx o.t whole rest
        (le_trans (sizeOf_tail_le _ _) hw) with
      | .ok more => .ok (mcons o more)
      | .error e => .error e
    | .error e => .error e
termination_by (sizeOf whole, 2, sizeOf fs)

def mergeObjF (paused : Bool) (path : List PKey) (pctx : Bool) (t : Tome)
    (whole : List (Str × JVal)) (fs : List (Str × JVal))
    (hw : sizeOf fs ≤ sizeOf whole) : Except TErr MOut :=
  match fs with
  | [] => .ok ⟨t, [], [], []⟩
  | (k, v) :: rest =>
    let one : Except TErr MOut :=
      if k = kDel then
        match v with
        | .jstr s => mOfL paused path (delLocal t (.f s))
        | .jnum n =>
          if 0 ≤ n then mOfL paused path (delLocal t (.f (natStr n.toNat)))
          else .error .badArgs
        | _ => .error .badArgs
      else if k = kRename then
        match renamePairsOf v with
        | some pairs => renameListF paused path ⟨t, [], [], []⟩ pairs
        | none => .error .badArgs
      else mergeTomeF paused path pctx t whole whole (le_refl _)
    match one with
    | .ok o =>
      match mergeObjF paused path pctx o.t whole rest
        (le_trans (sizeOf_tail_le _ _) hw) with
      | .ok more => .ok (mcons o more)
      | .error e => .error e
    | .error e => .error e
termination_by (sizeOf whole, 2, sizeOf fs)

def mergeNumF (paused : Bool) (path : List PKey) (pctx : Bool) (t : Tome)
    (whole : List (Str × JVal)) (fs : List (Str × JVal))
    (hw : sizeOf fs ≤ sizeOf whole) : Except TErr MOut :=
  match fs with
  | [] => .ok ⟨t, [], [], []⟩
  | (k, v) :: rest =>
    let one : Except TErr MOut :=
      if k = kInc then mOfL paused path (incLocal t v)
      else mergeTomeF paused path pctx t whole whole (le_refl _)
    match one with
    | .ok o =>
      match mergeNumF paused path pctx o.t whole rest
        (le_trans (sizeOf_tail_le _ _) hw) with
      | .ok more => .ok (mcons o more)
      | .error e => .error e
    | .error e => .error e
termination_by (sizeOf whole, 2, sizeOf fs)

def mergeTomeF (paused : Bool) (path : List PKey) (pctx : Bool) (t : Tome)
    (whole : List (Str × JVal)) (fs : List (Str × JVal))
    (hw : sizeOf fs ≤ sizeOf whole) : Except TErr MOut :=
  match fs with
  | [] => .ok ⟨t, [], [], []⟩
  | (k, v) :: rest =>
    let one : Except TErr MOut :=
      if k = kSet then
        match v with
        | .jobj vf => mergeSetF paused path ⟨t, [], [], []⟩ vf
        | .jarr l => mergeSetArr paused path ⟨t, [], [], []⟩ 0 l
        | _ => .ok ⟨t, [], [], []⟩
      else if k = kAssign then mOfL paused path (assignLocal pctx t v)
      else
        match k with
        | '_' :: cname =>
          let ck : Option PKey :=
            match t with
            | .tarr _ _ => (natCanon cname).map .i
            | .tobj _ _ => some (.f cname)
            | _ => none
          match ck with
          | some ckk =>
            match childGet t ckk with
            | some c =>
              have _hlt : sizeOf v < sizeOf whole :=
                lt_of_lt_of_le (sizeOf_snd_lt _ _ _) hw
              match mergeDispatch paused (path ++ [ckk]) t.isArr c v with
              | .ok mo =>
                let t2 := setChild t ckk mo.t
                match childLink t2 ckk with
                | some (lk, _) =>
                  let nested := mo.chains.map (fun ch => JVal.jobj [(lk, ch)])
                  let (t3, cevs2) := chainNodeAll paused path t2 nested
                  .ok ⟨t3, mo.sevs, mo.cevs ++ cevs2, nested⟩
                | none => .ok ⟨t2, mo.sevs, mo.cevs, []⟩
              | .error e => .error e
            | none => .error (.undefinedKey (.f cname))
          | none => .error (.undefinedKey (.f cname))
        | _ => .error (.invalidOp k)
    match one with
    | .ok o =>
      match mergeTomeF paused path pctx o.t whole rest
        (le_trans (sizeOf_tail_le _ _) hw) with
      | .ok more => .ok (mcons o more)
      | .error e => .error e
    | .error e => .error e
termination_by (sizeOf whole, 1, sizeOf fs)

end

/-! ### `consume`

Pauses the tree, merges one diff record or each record of a list in order,
then resumes, so observers see a single aggregate notification per
affected node. -/

def consumeStep (st : TState) (r : JVal) : Except TErr TState :=
  match mergeDispatch true [] false st.root r with
  | .ok mo =>
    .ok { root := mo.t, buffer := st.buffer.map (fun b => mo.sevs.foldl bufferPush b) }
  | .error e => .error e

def consume (st : TState) (d : JVal) : Except TErr (TState × List Ev) :=
  let st1 := (pause st).1
  match (match d with
    | .jarr l => l.foldlM consumeStep st1
    | _ => consumeStep st1 d) with
  | .ok st2 =>
    let (st3, evs, _) := resume st2
    .ok (st3, evs)
  | .error e => .error e

def consumeSeq : TState → List JVal → Except TErr TState
  | st, [] => .ok st
  | st, r :: rest =>
    match consume st r with
    | .ok (st2, _) => consumeSeq st2 rest
    | .error e => .error e

/-! ### Invariants -/

mutual

/-- No pending diffs anywhere in a subtree. -/
def pdFree : Tome → Bool
  | .tnull m => m.pd.isNone
  | .tundef m => m.pd.isNone
  | .tbool _ m => m.pd.isNone
  | .tnum _ m => m.pd.isNone
  | .tstr _ m => m.pd.isNone
  | .tarr es m => m.pd.isNone && pdFreeArr es
  | .tobj fs m => m.pd.isNone && pdFreeObj fs

def pdFreeArr : List (Nat × Tome) → Bool
  | [] => true
  | (_, c) :: rest => pdFree c && pdFreeArr rest

def pdFreeObj : List (Str × Option Tome) → Bool
  | [] => true
  | (_, none) :: rest => pdFreeObj rest
  | (_, some c) :: rest => pdFree c && pdFreeObj rest

end

def keysFrom : Nat → List (Nat × Tome) → Bool
  | _, [] => true
  | i, (k, _) :: rest => k == i && keysFrom (i + 1) rest

mutual

/-- Every array node's children carry stored keys equal to their positions
(the reindexing invariant of the array operations). -/
def keyInv : Tome → Bool
  | .tarr es _ => keysFrom 0 es && keyInvArr es
  | .tobj fs _ => keyInvObj fs
  | _ => true

def keyInvArr : List (Nat × Tome) → Bool
  | [] => true
  | (_, c) :: rest => keyInv c && keyInvArr rest

def keyInvObj : List (Str × Option Tome) → Bool
  | [] => true
  | (_, none) :: rest => keyInvObj rest
  | (_, some c) :: rest => keyInv c && keyInvObj rest

end

def versionAt (t : Tome) (p : List PKey) : Option Nat := (lookupPath t p).map Tome.version

/-- Build a fresh unpaused tree from a plain value (initial-population
events discarded; a `null` root stands in for a failed construction). -/
def stOf (v : JVal) : TState :=
  match conjure false v with
  | .ok (t, _) => ⟨t, none⟩
  | .error _ => ⟨.tnull .init, none⟩

/-- The stored `__key__` sequence of an array node's children. -/
def arrStoredKeys : Tome → List Nat
  | .tarr es _ => es.map Prod.fst
  | _ => []

def evIsDestroy : Ev → Bool
  | .destroy _ => true
  | _ => false

def evIsDiffe : Ev → Bool
  | .diffe _ _ => true
  | _ => false

/-! ### General lemmas -/

theorem notify_pd_none (path : List PKey) (t : Tome) (h : t.pd = none) :
    notify path t = (t, []) := by
  cases t <;>
    (rename_i m
     obtain ⟨ver, pd⟩ := m
     cases pd
     · rfl
     · simp [Tome.pd, Tome.meta] at h)

theorem notify_clears_root (path : List PKey) (t : Tome) (d : JVal) (h : t.pd = some d) :
    ((notify path t).1).pd = none := by
  cases t <;>
    (rename_i m
     obtain ⟨ver, pd⟩ := m
     cases pd
     · simp [Tome.pd, Tome.meta] at h
     · simp [notify, Tome.pd, Tome.meta])

theorem lookupPath_cons (t : Tome) (k : PKey) (rest : List PKey) (u : Tome) :
    lookupPath t (k :: rest) = some u ↔
      ∃ c, childGet t k = some c ∧ lookupPath c rest = some u := by
  constructor
  · intro h
    cases hc : childGet t k with
    | none => rw [lookupPath, hc] at h; cases h
    | some c => exact ⟨c, rfl, by rw [lookupPath, hc] at h; exact h⟩
  · rintro ⟨c, hc, hl⟩
    rw [lookupPath, hc]; exact hl

theorem runAt_error_of_op_error (paused : Bool) (path : List PKey) (pctx : Bool)
    (t : Tome) (p : List PKey) (op : Bool → Tome → Except TErr LOut) (u : Tome)
    (hl : lookupPath t p = some u) (herr : ∀ pc, ∃ e, op pc u = .error e) :
    ∃ e, runAt paused path pctx t p op = .error e := by
  induction p generalizing path pctx t with
  | nil =>
    cases hl
    obtain ⟨e, he⟩ := herr pctx
    exact ⟨e, by rw [runAt, he]⟩
  | cons k rest ih =>
    obtain ⟨c, hc, hlc⟩ := (lookupPath_cons t k rest u).1 hl
    obtain ⟨e, he⟩ := ih (path ++ [k]) t.isArr c hlc
    exact ⟨e, by rw [runAt, hc]; simp only [he]⟩

/-- C8: flushing is idempotent — after one `notify` walk the root's pending
diff is cleared, so a second `notify` with no intervening mutation emits
nothing and leaves the tree unchanged; the aggregate `signal`/`change`/
`diff` events fire only on the first call. -/
theorem c8_notify_idempotent (t : Tome) :
    notify [] ((notify [] t).1) = ((notify [] t).1, []) := by
  rcases hpd : t.pd with _ | d
  · rw [notify_pd_none [] t hpd]
    exact notify_pd_none [] t hpd
  · exact notify_pd_none [] _ (notify_clears_root [] t d hpd)

/-- C4: `assign` rejects a value whose type is outside the seven supported
variants, and rejects `undefined` when the node is not an array element;
both checks precede the reset that destroys existing children (they are the
first two branches of `assignLocal`, before `assignReinit`), so a rejected
`assign` raises without destroying anything and leaves the node unchanged —
in particular the whole mutation errors out with no new state whenever the
value's type is unsupported. -/
theorem c4_assign_validates_before_destroying (pctx : Bool) (t : Tome) (v : JVal)
    (h : v.typeOf ∉ supportedTypes ∨ (v = .undef ∧ pctx = false)) :
    (∃ e, assignLocal pctx t v = .error e) ∧
      (v.typeOf ∉ supportedTypes →
        ∀ st p, lookupPath st.root p = some t →
          ∃ e2, applyMut st p (.assign v) = .error e2) := by
  have hloc : ∀ pc : Bool,
      (v.typeOf ∉ supportedTypes ∨ (v = .undef ∧ pc = false)) →
      ∃ e, assignLocal pc t v = .error e := by
    intro pc hpc
    rcases hpc with hh | ⟨hv, hp⟩
    · exact ⟨.invalidValueType v.typeOf, by simp [assignLocal, hh]⟩
    · subst hv; subst hp
      refine ⟨.invalidElementType, ?_⟩
      have hin : JVal.undef.typeOf ∈ supportedTypes := by decide
      simp [assignLocal, hin]
  refine ⟨hloc pctx h, fun hbad st p hl => ?_⟩
  obtain ⟨e, he⟩ :=
    runAt_error_of_op_error st.buffer.isSome [] false st.root p (mutOp (.assign v)) t hl
      (fun pc => hloc pc (Or.inl hbad))
  exact ⟨e, by rw [applyMut, he]⟩

theorem c4_witness :
    (∃ e, assignLocal false (Tome.tobj [(['a'], some (.tnum 1 ⟨1, none⟩))] ⟨1, none⟩)
        (.other ("function".data)) = .error e) ∧
      ((JVal.other ("function".data)).typeOf ∉ supportedTypes →
        ∀ st p, lookupPath st.root p =
            some (Tome.tobj [(['a'], some (.tnum 1 ⟨1, none⟩))] ⟨1, none⟩) →
          ∃ e2, applyMut st p (.assign (.other ("function".data))) = .error e2) :=
  c4_assign_validates_before_destroying false _ _ (Or.inl (by decide))

/-- C2 (the code side of the claim): `splice` does not reindex the stored
`__key__` of surviving elements after the spliced region — on `[1, 2, 3]`,
`splice(1, 1, 9, 9)` produces the value `[1, 9, 9, 3]` but stored keys
`[0, 1, 2, 2]` (the trailing `3` keeps key `2` at position `3`), violating
the keys-equal-positions invariant that held before the call. -/
theorem c2_splice_leaves_stale_keys :
    keyInv (stOf (.jarr [.jnum 1, .jnum 2, .jnum 3])).root = true ∧
      (applyMut (stOf (.jarr [.jnum 1, .jnum 2, .jnum 3])) []
          (.splice 1 1 [.jnum 9, .jnum 9])).map
        (fun r => (r.1.root.value, arrStoredKeys r.1.root, keyInv r.1.root)) =
      .ok (.jarr [.jnum 1, .jnum 9, .jnum 9, .jnum 3], [0, 1, 2, 2], false) := by
  exact ⟨by decide, by decide⟩

/-- C6 counterexample: on an array node, `del` does not remove the key's
reference nor destroy the removed subtree — `del(0)` on `[1]` succeeds,
emits no `destroy` at all, and leaves a length-1 array whose element 0 is
a fresh undefined placeholder. -/
theorem c6_counterexample :
    (applyMut (stOf (.jarr [.jnum 1])) [] (.del (.i 0))).map
        (fun r => (r.1.root.value, (r.2.1.filter evIsDestroy).length, arrStoredKeys r.1.root)) =
      .ok (.jarr [.undef], 0, [0]) := by
  decide

theorem list_set_self {α : Type} (l : List α) (n : Nat) (a : α) (h : l[n]? = some a) :
    l.set n a = l := by
  induction l generalizing n with
  | nil => simp at h
  | cons x xs ih =>
    cases n with
    | zero => simp_all
    | succ m =>
      simp only [List.getElem?_cons_succ] at h
      simp [ih m h]

theorem tfSet_self (fs : List (Str × Option Tome)) (s : Str) (w : Option Tome)
    (h : tfFind fs s = some w) : tfSet fs s w = fs := by
  induction fs with
  | nil => simp [tfFind] at h
  | cons kv rest ih =>
    obtain ⟨k, v⟩ := kv
    by_cases hk : k = s
    · subst hk
      simp [tfFind] at h
      simp [tfSet, h]
    · simp [tfFind, hk] at h
      simp [tfSet, hk, ih h]

theorem setChild_self (t : Tome) (k : PKey) (c : Tome) (h : childGet t k = some c) :
    setChild t k c = t := by
  cases t with
  | tarr es m =>
    cases k with
    | i n =>
      rw [childGet] at h
      cases he : es[n]? with
      | none => rw [he] at h; cases h
      | some e =>
        obtain ⟨sk, c2⟩ := e
        rw [he] at h
        simp at h
        subst h
        simp [setChild, he, list_set_self es n (sk, c2) he]
    | f s => simp [childGet] at h
  | tobj fs m =>
    cases k with
    | i n => simp [childGet] at h
    | f s =>
      cases hf : tfFind fs s with
      | none => rw [childGet, hf] at h; cases h
      | some w =>
        cases w with
        | none => rw [childGet, hf] at h; cases h
        | some c2 =>
          rw [childGet, hf] at h
          simp at h
          subst h
          simp [setChild, tfSet_self fs s (some c2) hf]
  | tnull m => simp [childGet] at h
  | tundef m => simp [childGet] at h
  | tbool b m => simp [childGet] at h
  | tnum n m => simp [childGet] at h
  | tstr s m => simp [childGet] at h

/-- A mutation whose local operation is the identity (no events, no diff)
leaves the whole tree untouched and produces nothing. -/
theorem runAt_noop (paused : Bool) (path : List PKey) (pctx : Bool) (t : Tome)
    (p : List PKey) (op : Bool → Tome → Except TErr LOut) (u : Tome)
    (hl : lookupPath t p = some u) (hop : ∀ pc, op pc u = .ok ⟨u, [], none, []⟩) :
    runAt paused path pctx t p op = .ok (t, [], [], []) := by
  induction p generalizing path pctx t with
  | nil =>
    cases hl
    rw [runAt, hop pctx]
    rfl
  | cons k rest ih =>
    obtain ⟨c, hc, hlc⟩ := (lookupPath_cons t k rest u).1 hl
    rw [runAt, hc]
    simp only [ih (path ++ [k]) t.isArr c hlc]
    rw [setChild_self t k c hc]
    cases hcl : childLink t k with
    | none => simp [hcl]
    | some lkc => simp [hcl, chainNodeAll]

/-- C7: a same-variant scalar `assign` whose value equals the current
payload is a complete no-op — the node (payload, version and pending diff
included) is unchanged, no events are emitted and no diff record is
produced, and the whole-tree mutation returns the state unchanged; when the
value differs, the payload is updated in place (bookkeeping meta kept) and
exactly one `assign` diff entry is produced. -/
theorem c7_scalar_assign (t : Tome) (v : JVal)
    (hp : (∃ b m nb, t = .tbool b m ∧ v = .jbool nb) ∨
          (∃ a m na, t = .tnum a m ∧ v = .jnum na) ∨
          (∃ s m ns, t = .tstr s m ∧ v = .jstr ns)) :
    (t.value = v → ∀ pc, assignLocal pc t v = .ok ⟨t, [], none, []⟩) ∧
    (t.value ≠ v → ∀ pc, ∃ t2, assignLocal pc t v = .ok ⟨t2, [], none, [chain1 kAssign v]⟩ ∧
        t2.value = v ∧ t2.meta = t.meta) ∧
    (t.value = v → ∀ st p, lookupPath st.root p = some t →
        applyMut st p (.assign v) = .ok (st, [], [])) := by
  have main : (t.value = v → ∀ pc, assignLocal pc t v = .ok ⟨t, [], none, []⟩) ∧
      (t.value ≠ v → ∀ pc, ∃ t2,
        assignLocal pc t v = .ok ⟨t2, [], none, [chain1 kAssign v]⟩ ∧
        t2.value = v ∧ t2.meta = t.meta) := by
    rcases hp with ⟨b, m, nb, ht, hv⟩ | ⟨a, m, na, ht, hv⟩ | ⟨s, m, ns, ht, hv⟩ <;>
      subst ht <;> subst hv
    · constructor
      · intro he pc
        have hb : b = nb := by simpa [Tome.value] using he
        subst hb
        simp [assignLocal, supportedTypes, JVal.typeOf, Tome.typeOf]
      · intro hne pc
        have hb : b ≠ nb := fun h => hne (by simp [Tome.value, h])
        exact ⟨.tbool nb m, by simp [assignLocal, supportedTypes, JVal.typeOf, Tome.typeOf, hb],
          rfl, rfl⟩
    · constructor
      · intro he pc
        have hb : a = na := by simpa [Tome.value] using he
        subst hb
        simp [assignLocal, supportedTypes, JVal.typeOf, Tome.typeOf]
      · intro hne pc
        have hb : a ≠ na := fun h => hne (by simp [Tome.value, h])
        exact ⟨.tnum na m, by simp [assignLocal, supportedTypes, JVal.typeOf, Tome.typeOf, hb],
          rfl, rfl⟩
    · constructor
      · intro he pc
        have hb : s = ns := by simpa [Tome.value] using he
        subst hb
        simp [assignLocal, supportedTypes, JVal.typeOf, Tome.typeOf]
      · intro hne pc
        have hb : s ≠ ns := fun h => hne (by simp [Tome.value, h])
        exact ⟨.tstr ns m, by simp [assignLocal, supportedTypes, JVal.typeOf, Tome.typeOf, hb],
          rfl, rfl⟩
  refine ⟨main.1, main.2, fun he st p hl => ?_⟩
  have hop : ∀ pc, mutOp (.assign v) pc t = .ok ⟨t, [], none, []⟩ := fun pc => main.1 he pc
  rw [applyMut, runAt_noop st.buffer.isSome [] false st.root p (mutOp (.assign v)) t hl hop]
  obtain ⟨root, buffer⟩ := st
  cases buffer <;> simp

theorem c7_witness :
    (((Tome.tnum 1 ⟨1, none⟩).value = .jnum 1 →
        ∀ pc, assignLocal pc (.tnum 1 ⟨1, none⟩) (.jnum 1) =
          .ok ⟨.tnum 1 ⟨1, none⟩, [], none, []⟩) ∧
      ((Tome.tnum 1 ⟨1, none⟩).value ≠ .jnum 1 → ∀ pc, ∃ t2,
        assignLocal pc (.tnum 1 ⟨1, none⟩) (.jnum 1) =
            .ok ⟨t2, [], none, [chain1 kAssign (.jnum 1)]⟩ ∧
          t2.value = .jnum 1 ∧ t2.meta = (Tome.tnum 1 ⟨1, none⟩).meta) ∧
      ((Tome.tnum 1 ⟨1, none⟩).value = .jnum 1 →
        ∀ st p, lookupPath st.root p = some (.tnum 1 ⟨1, none⟩) →
          applyMut st p (.assign (.jnum 1)) = .ok (st, [], []))) ∧
    (Tome.tnum 1 ⟨1, none⟩).value = .jnum 1 :=
  ⟨c7_scalar_assign (.tnum 1 ⟨1, none⟩) (.jnum 1)
      (Or.inr (Or.inl ⟨1, ⟨1, none⟩, 1, rfl, rfl⟩)), by decide⟩

/-- C10: pause does not nest — `pause` on an already-paused tree returns
`true` and leaves the buffer (and whole state) untouched, however many
times it is repeated, and a single `resume` then emits every buffered
event (group by group in buffer order, then the notify walk), clears the
buffer, un-pauses the tree and returns `true`. -/
theorem c10_pause_no_nesting (st : TState) (b : Buffer) (h : st.buffer = some b) :
    pause st = (st, true) ∧
    (∀ nIter : Nat, (fun s => (pause s).1)^[nIter] st = st) ∧
    resume st =
      ({ root := (notify [] st.root).1, buffer := none },
        (b.map (fun g => g.2)).flatten.map (SEv.emit st.root) ++ (notify [] st.root).2,
        true) := by
  obtain ⟨root, buffer⟩ := st
  simp only at h
  subst h
  refine ⟨rfl, ?_, rfl⟩
  intro nIter
  induction nIter with
  | zero => rfl
  | succ n ih => rw [Function.iterate_succ_apply, pause]; exact ih

/-! ### Meta preservation: a mutation keeps the target node's
`__version__`/`__diff__` bookkeeping (the diff chain updates them
afterwards, on the way up) -/

theorem withMeta_meta (t : Tome) (m : Meta) : (t.withMeta m).meta = m := by
  cases t <;> rfl

theorem assignReinit_meta (pc : Bool) (t : Tome) (v : JVal) (lo : LOut)
    (h : assignReinit pc t v = .ok lo) : lo.t.meta = t.meta := by
  unfold assignReinit at h
  split at h <;> (split at h <;> first | (cases h; exact withMeta_meta _ _) | cases h)

theorem assignLocal_meta (pc : Bool) (t : Tome) (v : JVal) (lo : LOut)
    (h : assignLocal pc t v = .ok lo) : lo.t.meta = t.meta := by
  unfold assignLocal at h
  split at h
  · split at h
    · cases h
    · split at h
      · split at h <;>
          first
            | (split at h <;> (cases h; rfl))
            | (cases h; rfl)
            | exact assignReinit_meta _ _ _ _ h
      · exact assignReinit_meta _ _ _ _ h
  · cases h

theorem tomeSetObj_meta (fs : List (Str × Option Tome)) (m : Meta) (rEvs : List SEv)
    (k : Str) (v : JVal) (lo : LOut) (h : tomeSetObj fs m rEvs k v = .ok lo) :
    lo.t.meta = m := by
  unfold tomeSetObj at h
  split at h <;> (split at h <;> first | (cases h; rfl) | cases h)

theorem tomeSet_meta (t : Tome) (k : Str) (v : JVal) (lo : LOut)
    (h : tomeSet t k v = .ok lo) : lo.t.meta = t.meta := by
  unfold tomeSet at h
  split at h
  · split at h <;> (cases h; rfl)
  · split at h
    · exact tomeSetObj_meta _ _ _ _ _ _ h
    · exact tomeSetObj_meta _ _ _ _ _ _ h

theorem arrSet_meta (es : List (Nat × Tome)) (m : Meta) (k : Str) (v : JVal) (lo : LOut)
    (h : arrSet es m k v = .ok lo) : lo.t.meta = m := by
  unfold arrSet at h
  split at h
  · exact tomeSet_meta _ _ _ _ h
  · split at h
    · cases h; rfl
    · split at h
      · split at h <;> first | (cases h; rfl) | cases h
      · split at h
        · split at h <;> first | (cases h; rfl) | cases h
        · cases h; rfl

theorem setLocal_meta (t : Tome) (k : Str) (v : JVal) (lo : LOut)
    (h : setLocal t k v = .ok lo) : lo.t.meta = t.meta := by
  cases t <;>
    first
      | exact arrSet_meta _ _ _ _ _ h
      | exact tomeSet_meta _ _ _ _ h

theorem delLocal_meta (t : Tome) (k : PKey) (lo : LOut)
    (h : delLocal t k = .ok lo) : lo.t.meta = t.meta := by
  unfold delLocal at h
  split at h <;>
    first
      | (split at h <;> first | (cases h; rfl) | cases h)
      | (cases h; rfl)
      | cases h

theorem incLocal_meta (t : Tome) (v : JVal) (lo : LOut)
    (h : incLocal t v = .ok lo) : lo.t.meta = t.meta := by
  unfold incLocal at h
  split at h
  · split at h
    · split at h <;> (cases h; rfl)
    · cases h
  · cases h

theorem pushLocal_meta (es : List (Nat × Tome)) (m : Meta) (vs : List JVal) (lo : LOut)
    (h : pushLocal es m vs = .ok lo) : lo.t.meta = m := by
  unfold pushLocal at h
  split at h
  · cases h; rfl
  · split at h <;> first | (cases h; rfl) | cases h

theorem popLocal_meta (es : List (Nat × Tome)) (m : Meta) :
    (popLocal es m).t.meta = m := by
  unfold popLocal
  split <;> rfl

theorem shiftLocal_meta (es : List (Nat × Tome)) (m : Meta) :
    (shiftLocal es m).t.meta = m := by
  unfold shiftLocal
  split <;> rfl

theorem unshiftLocal_meta (es : List (Nat × Tome)) (m : Meta) (vs : List JVal) (lo : LOut)
    (h : unshiftLocal es m vs = .ok lo) : lo.t.meta = m := by
  unfold unshiftLocal at h
  split at h
  · cases h; rfl
  · split at h <;> first | (cases h; rfl) | cases h

theorem spliceLocal_meta (es : List (Nat × Tome)) (m : Meta) (s r : Int)
    (its : List JVal) (lo : LOut) (h : spliceLocal es m s r its = .ok lo) :
    lo.t.meta = m := by
  unfold spliceLocal at h
  split at h <;> first | (cases h; rfl) | cases h

theorem reverseLocal_meta (es : List (Nat × Tome)) (m : Meta) :
    (reverseLocal es m).t.meta = m := rfl

theorem renamePairStep_meta (t : Tome) (o n : Str) (lo : LOut)
    (h : renamePairStep t o n = .ok lo) : lo.t.meta = t.meta := by
  unfold renamePairStep at h
  cases t with
  | tobj fs m =>
    dsimp only at h
    by_cases ho : (tfFind fs o).isNone
    · rw [if_pos ho] at h; cases h
    · rw [if_neg ho] at h
      cases hdel : (if (tfFind fs n).isSome then delLocal (.tobj fs m) (.f n)
          else .ok ⟨.tobj fs m, [], none, []⟩) with
      | error e => rw [hdel] at h; cases h
      | ok lo2 =>
        rw [hdel] at h
        dsimp only at h
        have hm2 : lo2.t.meta = m := by
          by_cases hc : (tfFind fs n).isSome
          · rw [if_pos hc] at hdel
            exact delLocal_meta _ _ _ hdel
          · rw [if_neg hc] at hdel; cases hdel; rfl
        cases hlt : lo2.t with
        | tobj fs2 m2 =>
          rw [hlt] at h
          dsimp only at h
          cases hf : tfFind fs2 o with
          | some oc =>
            rw [hf] at h
            dsimp only at h
            cases h
            rw [hlt] at hm2
            simpa [Tome.meta] using hm2
          | none => rw [hf] at h; dsimp only at h; cases h
        | tnull m2 => rw [hlt] at h; dsimp only at h; cases h
        | tundef m2 => rw [hlt] at h; dsimp only at h; cases h
        | tbool b m2 => rw [hlt] at h; dsimp only at h; cases h
        | tnum a m2 => rw [hlt] at h; dsimp only at h; cases h
        | tstr s m2 => rw [hlt] at h; dsimp only at h; cases h
        | tarr es m2 => rw [hlt] at h; dsimp only at h; cases h
  | tnull m => cases h
  | tundef m => cases h
  | tbool b m => cases h
  | tnum a m => cases h
  | tstr s m => cases h
  | tarr es m => cases h

theorem mutOp_meta (m : Mut) (pc : Bool) (u : Tome) (lo : LOut)
    (h : mutOp m pc u = .ok lo) : lo.t.meta = u.meta := by
  cases m with
  | assign v => exact assignLocal_meta _ _ _ _ h
  | set k v => exact setLocal_meta _ _ _ _ h
  | del k => exact delLocal_meta _ _ _ h
  | inc a => simp only [mutOp] at h; exact incLocal_meta _ _ _ h
  | push vs => cases u <;> first | exact pushLocal_meta _ _ _ _ h | cases h
  | pop =>
    cases u <;> first | (cases h; exact popLocal_meta _ _) | cases h
  | shift =>
    cases u <;> first | (cases h; exact shiftLocal_meta _ _) | cases h
  | unshift vs => cases u <;> first | exact unshiftLocal_meta _ _ _ _ h | cases h
  | splice s r its => cases u <;> first | exact spliceLocal_meta _ _ _ _ _ _ h | cases h
  | reverse =>
    cases u <;> first | (cases h; exact reverseLocal_meta _ _) | cases h
  | renameObj o n => exact renamePairStep_meta _ _ _ _ h

/-! ### Version accounting along the diff chain -/

theorem chainNode_version (paused : Bool) (path : List PKey) (t : Tome) (c : JVal) :
    (chainNode paused path t c).1.version = t.version + 1 := by
  rw [chainNode]
  split
  · cases t <;> rfl
  · split <;> cases t <;> rfl

theorem childGet_withMeta (t : Tome) (m : Meta) (k : PKey) :
    childGet (t.withMeta m) k = childGet t k := by
  cases t <;> cases k <;> rfl

theorem chainNode_childGet (paused : Bool) (path : List PKey) (t : Tome) (c : JVal)
    (k : PKey) : childGet (chainNode paused path t c).1 k = childGet t k := by
  rw [chainNode]
  split
  · rw [Tome.setPd, Tome.bumpVersion, childGet_withMeta, childGet_withMeta]
  · split
    · rw [Tome.setPd, Tome.bumpVersion, childGet_withMeta, childGet_withMeta]
    · rw [Tome.bumpVersion, childGet_withMeta]

theorem chainNodeAll_version (paused : Bool) (path : List PKey) (cs : List JVal) :
    ∀ t : Tome, (chainNodeAll paused path t cs).1.version = t.version + cs.length := by
  induction cs with
  | nil => intro t; rfl
  | cons c rest ih =>
    intro t
    rw [chainNodeAll]
    have h1 := chainNode_version paused path t c
    have h2 := ih (chainNode paused path t c).1
    simp only [List.length_cons]
    omega

theorem chainNodeAll_childGet (paused : Bool) (path : List PKey) (cs : List JVal)
    (k : PKey) : ∀ t : Tome, childGet (chainNodeAll paused path t cs).1 k = childGet t k := by
  induction cs with
  | nil => intro t; rfl
  | cons c rest ih =>
    intro t
    rw [chainNodeAll]
    have h1 := chainNode_childGet paused path t c k
    have h2 := ih (chainNode paused path t c).1
    simp only []
    rw [h2, h1]


/-! ### Claim C9 support: `setChild`/`childLink` bookkeeping, the version
accounting of a whole mutation, and versions at construction -/

theorem setChild_meta (t : Tome) (k : PKey) (c : Tome) :
    (setChild t k c).meta = t.meta := by
  cases t <;> cases k <;> first | rfl | (rw [setChild]; split <;> rfl)

theorem tfFind_tfSet (fs : List (Str × Option Tome)) (s : Str) (v : Option Tome) :
    tfFind (tfSet fs s v) s = some v := by
  induction fs with
  | nil => simp [tfSet, tfFind]
  | cons p rest ih =>
    obtain ⟨k, w⟩ := p
    by_cases hk : k = s
    · subst hk; simp [tfSet, tfFind]
    · simp [tfSet, tfFind, hk, ih]

theorem list_getElem_set {α : Type} (l : List α) (n : Nat) (a b : α) (h : l[n]? = some a) :
    (l.set n b)[n]? = some b := by
  induction l generalizing n with
  | nil => simp at h
  | cons x xs ih =>
    cases n with
    | zero => simp
    | succ m =>
      simp only [List.getElem?_cons_succ] at h
      simpa using ih m h

theorem childGet_setChild (t : Tome) (k : PKey) (c sub : Tome)
    (h : childGet t k = some c) : childGet (setChild t k sub) k = some sub := by
  cases t with
  | tarr es m =>
    cases k with
    | i n =>
      rw [childGet] at h
      cases he : es[n]? with
      | none => rw [he] at h; cases h
      | some e =>
        obtain ⟨sk, old⟩ := e
        simp [setChild, he, childGet, list_getElem_set es n (sk, old) (sk, sub) he]
    | f s => simp [childGet] at h
  | tobj fs m =>
    cases k with
    | i n => simp [childGet] at h
    | f s => simp [setChild, childGet, tfFind_tfSet]
  | tnull m => simp [childGet] at h
  | tundef m => simp [childGet] at h
  | tbool b m => simp [childGet] at h
  | tnum a m => simp [childGet] at h
  | tstr s m => simp [childGet] at h

theorem childLink_setChild (t : Tome) (k : PKey) (c sub : Tome)
    (h : childGet t k = some c) :
    ∃ lk, childLink (setChild t k sub) k = some (lk, sub) := by
  cases t with
  | tarr es m =>
    cases k with
    | i n =>
      rw [childGet] at h
      cases he : es[n]? with
      | none => rw [he] at h; cases h
      | some e =>
        obtain ⟨sk, old⟩ := e
        refine ⟨'_' :: natStr sk, ?_⟩
        simp [setChild, he, childLink, list_getElem_set es n (sk, old) (sk, sub) he]
    | f s => simp [childGet] at h
  | tobj fs m =>
    cases k with
    | i n => simp [childGet] at h
    | f s =>
      refine ⟨'_' :: s, ?_⟩
      simp [setChild, childLink, tfFind_tfSet]
  | tnull m => simp [childGet] at h
  | tundef m => simp [childGet] at h
  | tbool b m => simp [childGet] at h
  | tnum a m => simp [childGet] at h
  | tstr s m => simp [childGet] at h

/-- The version accounting of one mutation: if the local operation keeps
the target node's meta (every `mutOp` does — the diff chain does the
bumping), then the node at every prefix `q` of the mutated path has its
version increased by exactly the number of diff chains the mutation
produced, i.e. by the number of `diff()` calls that bubbled through it. -/
theorem runAt_version (p : List PKey) :
    ∀ (paused : Bool) (path : List PKey) (pctx : Bool) (t : Tome)
      (op : Bool → Tome → Except TErr LOut)
      (r : Tome × List SEv × List Ev × List JVal),
    (∀ pc u lo, op pc u = .ok lo → lo.t.meta = u.meta) →
    runAt paused path pctx t p op = .ok r →
    ∀ q, q <+: p → ∃ u u3, lookupPath t q = some u ∧ lookupPath r.1 q = some u3 ∧
      u3.version = u.version + r.2.2.2.length := by
  induction p with
  | nil =>
    intro paused path pctx t op r hop h q hq
    have hq0 : q = [] := by
      obtain ⟨s, hs⟩ := hq
      cases q with
      | nil => rfl
      | cons a q2 => simp at hs
    subst hq0
    rw [runAt] at h
    cases hoplo : op pctx t with
    | error e => rw [hoplo] at h; cases h
    | ok lo =>
      rw [hoplo] at h
      dsimp only at h
      injection h with hr
      have hv : lo.t.version = t.version := by
        rw [Tome.version, Tome.version, hop pctx t lo hoplo]
      unfold applyLocal at hr
      cases hdown : lo.down with
      | none =>
        rw [hdown] at hr
        dsimp only at hr
        cases hca : chainNodeAll paused path lo.t lo.chains with
        | mk t2 cevs2 =>
          rw [hca] at hr
          dsimp only at hr
          subst hr
          refine ⟨t, t2, rfl, rfl, ?_⟩
          show t2.version = t.version + lo.chains.length
          have h1 := chainNodeAll_version paused path lo.chains lo.t
          rw [hca] at h1
          dsimp only at h1
          omega
      | some dk =>
        rw [hdown] at hr
        dsimp only at hr
        cases hcl : childLink lo.t dk with
        | none =>
          rw [hcl] at hr
          dsimp only at hr
          subst hr
          refine ⟨t, lo.t, rfl, rfl, ?_⟩
          show lo.t.version = t.version + ([] : List JVal).length
          simpa using hv
        | some lc =>
          obtain ⟨lk, c⟩ := lc
          rw [hcl] at hr
          dsimp only at hr
          cases hca1 : chainNodeAll paused (path ++ [dk]) c lo.chains with
          | mk c2 cevs1 =>
            rw [hca1] at hr
            dsimp only at hr
            cases hca2 : chainNodeAll paused path (setChild lo.t dk c2)
                (lo.chains.map (fun ch => JVal.jobj [(lk, ch)])) with
            | mk t3 cevs2 =>
              rw [hca2] at hr
              dsimp only at hr
              subst hr
              refine ⟨t, t3, rfl, rfl, ?_⟩
              show t3.version = t.version +
                (lo.chains.map (fun ch => JVal.jobj [(lk, ch)])).length
              have h1 := chainNodeAll_version paused path
                (lo.chains.map (fun ch => JVal.jobj [(lk, ch)])) (setChild lo.t dk c2)
              rw [hca2] at h1
              dsimp only at h1
              have h2 : (setChild lo.t dk c2).version = lo.t.version := by
                rw [Tome.version, Tome.version, setChild_meta]
              omega
  | cons k rest ih =>
    intro paused path pctx t op r hop h q hq
    rw [runAt] at h
    cases hcg : childGet t k with
    | none => rw [hcg] at h; cases h
    | some c =>
      rw [hcg] at h
      dsimp only at h
      cases hrec : runAt paused (path ++ [k]) t.isArr c rest op with
      | error e => rw [hrec] at h; cases h
      | ok rsub =>
        obtain ⟨sub, sevs0, cevs0, chains0⟩ := rsub
        rw [hrec] at h
        dsimp only at h
        obtain ⟨lk, hcl⟩ := childLink_setChild t k c sub hcg
        rw [hcl] at h
        dsimp only at h
        cases hca : chainNodeAll paused path (setChild t k sub)
            (chains0.map (fun ch => JVal.jobj [(lk, ch)])) with
        | mk t3 cevs2 =>
          rw [hca] at h
          dsimp only at h
          injection h with hr
          subst hr
          have h1 := chainNodeAll_version paused path
            (chains0.map (fun ch => JVal.jobj [(lk, ch)])) (setChild t k sub)
          rw [hca] at h1
          dsimp only at h1
          have h2 : (setChild t k sub).version = t.version := by
            rw [Tome.version, Tome.version, setChild_meta]
          have hg3 : childGet t3 k = some sub := by
            have h4 := chainNodeAll_childGet paused path
              (chains0.map (fun ch => JVal.jobj [(lk, ch)])) k (setChild t k sub)
            rw [hca] at h4
            dsimp only at h4
            rw [h4]
            exact childGet_setChild t k c sub hcg
          cases q with
          | nil =>
            refine ⟨t, t3, rfl, rfl, ?_⟩
            show t3.version = t.version +
              (chains0.map (fun ch => JVal.jobj [(lk, ch)])).length
            omega
          | cons k2 q2 =>
            obtain ⟨s, hs⟩ := hq
            rw [List.cons_append] at hs
            injection hs with hk2 hs2
            subst hk2
            obtain ⟨u, u3, hu, hu3, huv⟩ :=
              ih paused (path ++ [k2]) t.isArr c op (sub, sevs0, cevs0, chains0)
                hop hrec q2 ⟨s, hs2⟩
            have huv2 : u3.version = u.version + chains0.length := huv
            refine ⟨u, u3, ?_, ?_, ?_⟩
            · rw [lookupPath, hcg]; exact hu
            · rw [lookupPath, hg3]; exact hu3
            · show u3.version = u.version +
                (chains0.map (fun ch => JVal.jobj [(lk, ch)])).length
              rw [List.length_map]
              exact huv2

mutual

/-- Every node in the subtree has `__version__ = 1`. -/
def versionsOne : Tome → Bool
  | .tnull m => m.version == 1
  | .tundef m => m.version == 1
  | .tbool _ m => m.version == 1
  | .tnum _ m => m.version == 1
  | .tstr _ m => m.version == 1
  | .tarr es m => m.version == 1 && versionsOneArr es
  | .tobj fs m => m.version == 1 && versionsOneObj fs

def versionsOneArr : List (Nat × Tome) → Bool
  | [] => true
  | (_, c) :: rest => versionsOne c && versionsOneArr rest

def versionsOneObj : List (Str × Option Tome) → Bool
  | [] => true
  | (_, none) :: rest => versionsOneObj rest
  | (_, some c) :: rest => versionsOne c && versionsOneObj rest

end

mutual

theorem conjure_versionsOne (pctx : Bool) (v : JVal) (p : Tome × List SEv)
    (h : conjure pctx v = .ok p) : versionsOne p.1 = true := by
  cases v with
  | null => injection h with hr; subst hr; rfl
  | undef =>
    rw [conjure] at h
    split at h
    · injection h with hr; subst hr; rfl
    · cases h
  | jbool b => injection h with hr; subst hr; rfl
  | jnum a => injection h with hr; subst hr; rfl
  | jstr s => injection h with hr; subst hr; rfl
  | jarr l =>
    rw [conjure] at h
    cases ha : conjureArr 0 l with
    | error e => rw [ha] at h; cases h
    | ok q =>
      obtain ⟨es, evs⟩ := q
      rw [ha] at h
      injection h with hr
      subst hr
      rw [versionsOne, Bool.and_eq_true]
      exact ⟨rfl, conjureArr_versionsOne 0 l (es, evs) ha⟩
  | jobj l =>
    rw [conjure] at h
    cases ha : conjureObj l with
    | error e => rw [ha] at h; cases h
    | ok q =>
      obtain ⟨fs, evs⟩ := q
      rw [ha] at h
      injection h with hr
      subst hr
      rw [versionsOne, Bool.and_eq_true]
      exact ⟨rfl, conjureObj_versionsOne l (fs, evs) ha⟩
  | other tag => cases h

theorem conjureArr_versionsOne (i : Nat) (l : List JVal) (p : List (Nat × Tome) × List SEv)
    (h : conjureArr i l = .ok p) : versionsOneArr p.1 = true := by
  cases l with
  | nil => injection h with hr; subst hr; rfl
  | cons v rest =>
    rw [conjureArr] at h
    cases hc : conjure true v with
    | error e => rw [hc] at h; cases h
    | ok q =>
      obtain ⟨c, evs⟩ := q
      rw [hc] at h
      dsimp only at h
      cases ha : conjureArr (i + 1) rest with
      | error e => rw [ha] at h; cases h
      | ok q2 =>
        obtain ⟨cs, evs2⟩ := q2
        rw [ha] at h
        injection h with hr
        subst hr
        rw [versionsOneArr, Bool.and_eq_true]
        exact ⟨conjure_versionsOne true v (c, evs) hc,
          conjureArr_versionsOne (i + 1) rest (cs, evs2) ha⟩

theorem conjureObj_versionsOne (l : List (Str × JVal)) (p : List (Str × Option Tome) × List SEv)
    (h : conjureObj l = .ok p) : versionsOneObj p.1 = true := by
  cases l with
  | nil => injection h with hr; subst hr; rfl
  | cons kv rest =>
    obtain ⟨k, v⟩ := kv
    cases v with
    | undef =>
      rw [conjureObj] at h
      cases ha : conjureObj rest with
      | error e => rw [ha] at h; cases h
      | ok q =>
        obtain ⟨fs, evs⟩ := q
        rw [ha] at h
        injection h with hr
        subst hr
        exact conjureObj_versionsOne rest (fs, evs) ha
    | null =>
      rw [conjureObj] at h
      case x_1 => exact nofun
      cases hc : conjure false JVal.null with
      | error e => rw [hc] at h; cases h
      | ok q =>
        obtain ⟨c, evs⟩ := q
        rw [hc] at h
        dsimp only at h
        cases ha : conjureObj rest with
        | error e => rw [ha] at h; cases h
        | ok q2 =>
          obtain ⟨fs, evs2⟩ := q2
          rw [ha] at h
          injection h with hr
          subst hr
          rw [versionsOneObj, Bool.and_eq_true]
          exact ⟨conjure_versionsOne false JVal.null (c, evs) hc,
            conjureObj_versionsOne rest (fs, evs2) ha⟩
    | jbool b =>
      rw [conjureObj] at h
      case x_1 => exact nofun
      cases hc : conjure false (JVal.jbool b) with
      | error e => rw [hc] at h; cases h
      | ok q =>
        obtain ⟨c, evs⟩ := q
        rw [hc] at h
        dsimp only at h
        cases ha : conjureObj rest with
        | error e => rw [ha] at h; cases h
        | ok q2 =>
          obtain ⟨fs, evs2⟩ := q2
          rw [ha] at h
          injection h with hr
          subst hr
          rw [versionsOneObj, Bool.and_eq_true]
          exact ⟨conjure_versionsOne false (JVal.jbool b) (c, evs) hc,
            conjureObj_versionsOne rest (fs, evs2) ha⟩
    | jnum a =>
      rw [conjureObj] at h
      case x_1 => exact nofun
      cases hc : conjure false (JVal.jnum a) with
      | error e => rw [hc] at h; cases h
      | ok q =>
        obtain ⟨c, evs⟩ := q
        rw [hc] at h
        dsimp only at h
        cases ha : conjureObj rest with
        | error e => rw [ha] at h; cases h
        | ok q2 =>
          obtain ⟨fs, evs2⟩ := q2
          rw [ha] at h
          injection h with hr
          subst hr
          rw [versionsOneObj, Bool.and_eq_true]
          exact ⟨conjure_versionsOne false (JVal.jnum a) (c, evs) hc,
            conjureObj_versionsOne rest (fs, evs2) ha⟩
    | jstr s =>
      rw [conjureObj] at h
      case x_1 => exact nofun
      cases hc : conjure false (JVal.jstr s) with
      | error e => rw [hc] at h; cases h
      | ok q =>
        obtain ⟨c, evs⟩ := q
        rw [hc] at h
        dsimp only at h
        cases ha : conjureObj rest with
        | error e => rw [ha] at h; cases h
        | ok q2 =>
          obtain ⟨fs, evs2⟩ := q2
          rw [ha] at h
          injection h with hr
          subst hr
          rw [versionsOneObj, Bool.and_eq_true]
          exact ⟨conjure_versionsOne false (JVal.jstr s) (c, evs) hc,
            conjureObj_versionsOne rest (fs, evs2) ha⟩
    | jarr l2 =>
      rw [conjureObj] at h
      case x_1 => exact nofun
      cases hc : conjure false (JVal.jarr l2) with
      | error e => rw [hc] at h; cases h
      | ok q =>
        obtain ⟨c, evs⟩ := q
        rw [hc] at h
        dsimp only at h
        cases ha : conjureObj rest with
        | error e => rw [ha] at h; cases h
        | ok q2 =>
          obtain ⟨fs, evs2⟩ := q2
          rw [ha] at h
          injection h with hr
          subst hr
          rw [versionsOneObj, Bool.and_eq_true]
          exact ⟨conjure_versionsOne false (JVal.jarr l2) (c, evs) hc,
            conjureObj_versionsOne rest (fs, evs2) ha⟩
    | jobj l2 =>
      rw [conjureObj] at h
      case x_1 => exact nofun
      cases hc : conjure false (JVal.jobj l2) with
      | error e => rw [hc] at h; cases h
      | ok q =>
        obtain ⟨c, evs⟩ := q
        rw [hc] at h
        dsimp only at h
        cases ha : conjureObj rest with
        | error e => rw [ha] at h; cases h
        | ok q2 =>
          obtain ⟨fs, evs2⟩ := q2
          rw [ha] at h
          injection h with hr
          subst hr
          rw [versionsOneObj, Bool.and_eq_true]
          exact ⟨conjure_versionsOne false (JVal.jobj l2) (c, evs) hc,
            conjureObj_versionsOne rest (fs, evs2) ha⟩
    | other tag =>
      rw [conjureObj] at h
      case x_1 => exact nofun
      cases hc : conjure false (JVal.other tag) with
      | error e => rw [hc] at h; cases h
      | ok q =>
        obtain ⟨c, evs⟩ := q
        rw [hc] at h
        dsimp only at h
        cases ha : conjureObj rest with
        | error e => rw [ha] at h; cases h
        | ok q2 =>
          obtain ⟨fs, evs2⟩ := q2
          rw [ha] at h
          injection h with hr
          subst hr
          rw [versionsOneObj, Bool.and_eq_true]
          exact ⟨conjure_versionsOne false (JVal.other tag) (c, evs) hc,
            conjureObj_versionsOne rest (fs, evs2) ha⟩

end


/-- Concrete one-field object tree used to exercise the version theorem. -/
def c9wSt : TState :=
  ⟨Tome.tobj [(['a'], some (Tome.tnum 1 Meta.init))] Meta.init, none⟩

def c9wOut : TState × List Ev × List JVal :=
  match applyMut c9wSt [PKey.f ['a']] (Mut.assign (JVal.jnum 2)) with
  | .ok o => o
  | .error _ => (c9wSt, [], [])

/-- **C9.** Versions start at 1 and strictly increase under mutation: every
node a successful `conjure` builds carries `__version__ = 1`, and a
mutation at path `p` that produces diff records (`recs ≠ []`) increases the
version of the mutated node and of every ancestor up to the root — each by
exactly `recs.length ≥ 1`, one bump per diff chain that bubbles through. -/
theorem c9_version_invariant :
    (∀ (pctx : Bool) (v : JVal) (p : Tome × List SEv),
        conjure pctx v = .ok p → versionsOne p.1 = true)
    ∧ (∀ (st : TState) (p : List PKey) (mu : Mut) (out : TState × List Ev × List JVal),
        applyMut st p mu = .ok out → out.2.2 ≠ [] →
        ∀ q, q <+: p → ∃ u u2, lookupPath st.root q = some u ∧
          lookupPath out.1.root q = some u2 ∧
          u2.version = u.version + out.2.2.length ∧ u.version < u2.version) := by
  refine ⟨fun pctx v p h => conjure_versionsOne pctx v p h, ?_⟩
  intro st p mu out h hne q hq
  unfold applyMut at h
  cases hrun : runAt st.buffer.isSome [] false st.root p (mutOp mu) with
  | error e => rw [hrun] at h; cases h
  | ok rr =>
    obtain ⟨root2, sevs, cevs, recs⟩ := rr
    rw [hrun] at h
    dsimp only at h
    obtain ⟨u, u2, hu, hu2, hv⟩ := runAt_version p st.buffer.isSome [] false st.root
      (mutOp mu) (root2, sevs, cevs, recs)
      (fun pc w lo hh => mutOp_meta mu pc w lo hh) hrun q hq
    have hu2b : lookupPath root2 q = some u2 := hu2
    have hvb : u2.version = u.version + recs.length := hv
    cases hb : st.buffer with
    | some b =>
      rw [hb] at h
      dsimp only at h
      injection h with hr
      subst hr
      have hne2 : recs ≠ [] := hne
      have hpos : 0 < recs.length := List.length_pos.mpr hne2
      exact ⟨u, u2, hu, hu2b, hvb, by omega⟩
    | none =>
      rw [hb] at h
      dsimp only at h
      injection h with hr
      subst hr
      have hne2 : recs ≠ [] := hne
      have hpos : 0 < recs.length := List.length_pos.mpr hne2
      exact ⟨u, u2, hu, hu2b, hvb, by omega⟩

theorem c9_witness :
    ∃ u u2, lookupPath c9wSt.root [PKey.f ['a']] = some u ∧
      lookupPath c9wOut.1.root [PKey.f ['a']] = some u2 ∧
      u2.version = u.version + c9wOut.2.2.length ∧ u.version < u2.version :=
  c9_version_invariant.2 c9wSt [PKey.f ['a']] (Mut.assign (JVal.jnum 2)) c9wOut
    (by decide) (by decide) [PKey.f ['a']] ⟨[], rfl⟩

/-! ### Buffer grouping (for the resume ordering claim) -/

def stepKind (acc : List EvKind) (e : SEv) : List EvKind :=
  if e.kind ∈ acc then acc else acc ++ [e.kind]

/-- The kinds buffered so far, in order of each kind's first occurrence
(JavaScript object key insertion order). -/
def firstKinds (es : List SEv) : List EvKind := es.foldl stepKind []

/-- The buffer contents after buffering `l` into a fresh buffer: one group
per kind in first-occurrence order, each holding that kind's events in
emission order. -/
def mkGroups (l : List SEv) : Buffer :=
  (firstKinds l).map (fun kd => (kd, l.filter (fun e2 => e2.kind == kd)))

theorem mem_foldl_stepKind (l : List SEv) : ∀ (acc : List EvKind) (x : EvKind),
    x ∈ l.foldl stepKind acc ↔ x ∈ acc ∨ ∃ e ∈ l, SEv.kind e = x := by
  induction l with
  | nil => simp
  | cons e rest ih =>
    intro acc x
    rw [List.foldl_cons, ih]
    by_cases h : e.kind ∈ acc <;> simp [stepKind, h] <;> aesop

theorem nodup_foldl_stepKind (l : List SEv) : ∀ acc : List EvKind, acc.Nodup →
    (l.foldl stepKind acc).Nodup := by
  induction l with
  | nil => intro acc h; simpa
  | cons e rest ih =>
    intro acc h
    rw [List.foldl_cons]
    apply ih
    by_cases hm : e.kind ∈ acc
    · simpa [stepKind, hm]
    · rw [stepKind, if_neg hm]
      refine List.Nodup.append h (List.nodup_singleton _) ?_
      intro a ha hb
      simp at hb
      subst hb
      exact hm ha

theorem filter_kind_nil (l : List SEv) (x : EvKind) (h : x ∉ firstKinds l) :
    l.filter (fun e2 => e2.kind == x) = [] := by
  rw [List.filter_eq_nil_iff]
  intro e he
  simp only [beq_iff_eq]
  intro hk
  exact h ((mem_foldl_stepKind l [] x).2 (Or.inr ⟨e, he, hk⟩))

theorem bufferPush_map_not_mem (K : List EvKind) (f : EvKind → List SEv) (e : SEv)
    (h : e.kind ∉ K) :
    bufferPush (K.map (fun kd => (kd, f kd))) e =
      K.map (fun kd => (kd, f kd)) ++ [(e.kind, [e])] := by
  induction K with
  | nil => rfl
  | cons kd K ih =>
    have hne : kd ≠ e.kind := fun hh => h (hh ▸ List.mem_cons_self _ _)
    have h2 : e.kind ∉ K := fun hh => h (List.mem_cons_of_mem _ hh)
    simp [bufferPush, hne, ih h2]

theorem bufferPush_map_mem (K : List EvKind) (f : EvKind → List SEv) (e : SEv)
    (hnd : K.Nodup) (h : e.kind ∈ K) :
    bufferPush (K.map (fun kd => (kd, f kd))) e =
      K.map (fun kd => (kd, if kd = e.kind then f kd ++ [e] else f kd)) := by
  induction K with
  | nil => cases h
  | cons kd K ih =>
    by_cases he : kd = e.kind
    · subst he
      have hK : e.kind ∉ K := (List.nodup_cons.1 hnd).1
      rw [List.map_cons, bufferPush, if_pos rfl, List.map_cons, if_pos rfl]
      congr 1
      apply List.map_congr_left
      intro kd2 hkd2
      have hne : ¬ kd2 = e.kind := fun hh => hK (hh ▸ hkd2)
      rw [if_neg hne]
    · have h2 : e.kind ∈ K := by
        rcases List.mem_cons.1 h with hh | hh
        · exact absurd hh.symm he
        · exact hh
      simp only [List.map_cons, bufferPush]
      rw [if_neg (fun hh => he hh), if_neg he, ih (List.nodup_cons.1 hnd).2 h2]

theorem bufferPush_mkGroups (l : List SEv) (e : SEv) :
    bufferPush (mkGroups l) e = mkGroups (l ++ [e]) := by
  have hfk : firstKinds (l ++ [e]) = stepKind (firstKinds l) e := by
    rw [firstKinds, firstKinds, List.foldl_append, List.foldl_cons, List.foldl_nil]
  by_cases hm : e.kind ∈ firstKinds l
  · rw [mkGroups, bufferPush_map_mem (firstKinds l)
        (fun kd => l.filter (fun e2 => e2.kind == kd)) e
        (nodup_foldl_stepKind l [] List.nodup_nil) hm,
      mkGroups, hfk, stepKind, if_pos hm]
    apply List.map_congr_left
    intro kd _
    by_cases hke : kd = e.kind
    · subst hke
      simp [List.filter_append]
    · simp [List.filter_append, Ne.symm hke, hke]
  · rw [mkGroups, bufferPush_map_not_mem (firstKinds l)
        (fun kd => l.filter (fun e2 => e2.kind == kd)) e hm,
      mkGroups, hfk, stepKind, if_neg hm, List.map_append]
    congr 1
    · apply List.map_congr_left
      intro kd hkd
      have hne : e.kind ≠ kd := fun hh => hm (hh ▸ hkd)
      simp [List.filter_append, hne]
    · simp [List.filter_append, filter_kind_nil l e.kind hm]

theorem foldl_bufferPush_mkGroups (es : List SEv) :
    es.foldl bufferPush [] = mkGroups es := by
  induction es using List.reverseRecOn with
  | nil => rfl
  | append_singleton l e ih =>
    rw [List.foldl_append, List.foldl_cons, List.foldl_nil, ih, bufferPush_mkGroups]

def evStructKind : Ev → Option EvKind
  | .add _ _ _ => some .add
  | .del _ _ => some .del
  | .ren _ _ _ => some .ren
  | .destroy _ => some .destroy
  | _ => none

/-- The kinds of the structural events in an emitted stream. -/
def structKinds (l : List Ev) : List EvKind := l.filterMap evStructKind

/-- The fixed kind order the claim describes: all adds, then dels, then
renames, then destroys. -/
def groupedFixedOrder (l : List EvKind) : Bool :=
  l == l.filter (· == EvKind.add) ++ l.filter (· == EvKind.del) ++
      l.filter (· == EvKind.ren) ++ l.filter (· == EvKind.destroy)

/-- C3 counterexample: pause `{a: 1}`, then `del('a')` (which buffers the
removed node's `destroy` first, then the `del`), then `set('b', 2)` (which
buffers an `add`).  `resume` replays the groups in the buffer's insertion
order — destroys, dels, adds — not in the fixed add/del/rename/destroy
order the claim states. -/
theorem c3_counterexample :
    ((applyMut (pause (stOf (.jobj [(['a'], .jnum 1)]))).1 [] (.del (.f ['a']))).bind
        (fun r => applyMut r.1 [] (.set ['b'] (.jnum 2)))).map
      (fun r => structKinds (resume r.1).2.1) = .ok [.destroy, .del, .add] ∧
    groupedFixedOrder [.destroy, .del, .add] = false ∧
    groupedFixedOrder [.add, .del, .destroy] = true := by
  exact ⟨by decide, by decide, by decide⟩

/-- C3 amended: `resume` on a paused tree with a non-empty buffer replays
the buffered structural events grouped by kind — each group complete and
in buffering order — with the GROUPS ordered by each kind's first buffered
occurrence (the buffer object's key insertion order), not in a fixed
add/del/rename/destroy order; it then clears the buffer and performs a
single `notify` walk from the root. -/
theorem c3_resume_grouped_by_first_occurrence :
    (∀ es : List SEv, es.foldl bufferPush [] = mkGroups es) ∧
    (∀ (root : Tome) (es : List SEv),
      resume ⟨root, some (es.foldl bufferPush [])⟩ =
        ({ root := (notify [] root).1, buffer := none },
          ((firstKinds es).map (fun kd => es.filter (fun e2 => e2.kind == kd))).flatten.map
              (SEv.emit root) ++ (notify [] root).2,
          true)) := by
  refine ⟨foldl_bufferPush_mkGroups, fun root es => ?_⟩
  rw [foldl_bufferPush_mkGroups, resume]
  simp only [mkGroups, List.map_map]
  rfl

/-- C5 counterexample: the wrap-at-second-occurrence reading fails for
array-valued payloads.  On a paused `[1]`, `push(2)` then `push(3)` leaves
the pending `push` entry `[2, [3]]` — the second occurrence `[3]` is pushed
INTO the existing array payload `[2]` — not the wrapped list
`[[2], [3]]` the claim describes. -/
theorem c5_counterexample :
    ((applyMut ⟨.tarr [(0, .tnum 1 ⟨1, none⟩)] ⟨1, none⟩, some []⟩ []
          (.push [.jnum 2])).bind
        (fun r => applyMut r.1 [] (.push [.jnum 3]))).map
      (fun r => r.1.root.pd) =
      .ok (some (.jobj [(kPush, .jarr [.jnum 2, .jarr [.jnum 3]])])) ∧
    JVal.jarr [.jnum 2, .jarr [.jnum 3]] ≠ .jarr [.jarr [.jnum 2], .jarr [.jnum 3]] := by
  exact ⟨by decide, by decide⟩

/-- C5 amended: when an operation name recurs in a node's pending diff the
payload accumulates as follows — a missing entry stores the payload as is;
an existing NON-array entry is wrapped together with the new occurrence
into a two-element list; an existing array entry (including a first
occurrence whose payload is itself a list, as for `push`) has the new
occurrence appended into it without re-wrapping.  In particular, pausing a
tree whose root is a Number node valued 1 and calling `inc(5)` twice emits,
on resume, exactly one `diff` event, whose `inc` entry is the list `[5,5]`,
with the node's value equal to 11 (and nothing emitted while paused). -/
theorem c5_diff_accumulation :
    (∀ df k v, jfFind df k = none →
      diffMergeField (.jobj df) k v = .jobj (jfSet df k v)) ∧
    (∀ df k v old, jfFind df k = some old → (∀ l, old ≠ .jarr l) →
      diffMergeField (.jobj df) k v = .jobj (jfSet df k (.jarr [old, v]))) ∧
    (∀ df k v l, jfFind df k = some (.jarr l) →
      diffMergeField (.jobj df) k v = .jobj (jfSet df k (.jarr (l ++ [v])))) ∧
    (((applyMut ⟨.tnum 1 ⟨1, none⟩, some []⟩ [] (.inc 5)).bind
        (fun r => applyMut r.1 [] (.inc 5))).map
      (fun r => ((resume r.1).2.1, (resume r.1).1.root.value,
        ((resume r.1).2.1.filter evIsDiffe).length, r.2.1)) =
      .ok ([.signal [] (.jnum 11), .change [] (.jnum 11),
            .diffe [] (.jobj [(kInc, .jarr [.jnum 5, .jnum 5])])],
           .jnum 11, 1, [])) := by
  refine ⟨fun df k v h => by simp [diffMergeField, h],
    fun df k v old h hna => ?_, fun df k v l h => by simp [diffMergeField, h], by decide⟩
  cases old <;> simp [diffMergeField, h]
  exact absurd rfl (hna _)

theorem c5_witness :
    diffMergeField (.jobj []) kInc (.jnum 5) = .jobj (jfSet [] kInc (.jnum 5)) :=
  c5_diff_accumulation.1 [] kInc (.jnum 5) (by decide)

mutual

def nodeCount : Tome → Nat
  | .tarr es _ => 1 + nodeCountArr es
  | .tobj fs _ => 1 + nodeCountObj fs
  | _ => 1

def nodeCountArr : List (Nat × Tome) → Nat
  | [] => 0
  | (_, c) :: rest => nodeCount c + nodeCountArr rest

def nodeCountObj : List (Str × Option Tome) → Nat
  | [] => 0
  | (_, none) :: rest => nodeCountObj rest
  | (_, some c) :: rest => nodeCount c + nodeCountObj rest

end

def sevIsDestroy : SEv → Bool
  | .destroy _ => true
  | _ => false

mutual

theorem destroyEvs_length : ∀ t : Tome, (destroyEvs t).length = nodeCount t
  | .tnull _ => rfl
  | .tundef _ => rfl
  | .tbool _ _ => rfl
  | .tnum _ _ => rfl
  | .tstr _ _ => rfl
  | .tarr es _ => by
    rw [destroyEvs, nodeCount, List.length_append, destroyArr_length 0 es]
    simp [Nat.add_comm]
  | .tobj fs _ => by
    rw [destroyEvs, nodeCount, List.length_append, destroyObj_length fs]
    simp [Nat.add_comm]

theorem destroyArr_length : ∀ (i : Nat) (es : List (Nat × Tome)),
    (destroyArr i es).length = nodeCountArr es
  | _, [] => rfl
  | i, (_, c) :: rest => by
    rw [destroyArr, nodeCountArr, List.length_append, destroyArr_length (i + 1) rest,
      shiftEvs, List.length_map, destroyEvs_length c]

theorem destroyObj_length : ∀ fs : List (Str × Option Tome),
    (destroyObj fs).length = nodeCountObj fs
  | [] => rfl
  | (_, none) :: rest => by
    rw [destroyObj, nodeCountObj, destroyObj_length rest]
  | (k, some c) :: rest => by
    rw [destroyObj, nodeCountObj, List.length_append, destroyObj_length rest,
      shiftEvs, List.length_map, destroyEvs_length c]

end

mutual

theorem destroyEvs_all_destroy : ∀ t : Tome, ∀ e ∈ destroyEvs t, sevIsDestroy e = true
  | .tnull _ => by intro e he; rw [destroyEvs] at he; simp at he; simp [he, sevIsDestroy]
  | .tundef _ => by intro e he; rw [destroyEvs] at he; simp at he; simp [he, sevIsDestroy]
  | .tbool _ _ => by intro e he; rw [destroyEvs] at he; simp at he; simp [he, sevIsDestroy]
  | .tnum _ _ => by intro e he; rw [destroyEvs] at he; simp at he; simp [he, sevIsDestroy]
  | .tstr _ _ => by intro e he; rw [destroyEvs] at he; simp at he; simp [he, sevIsDestroy]
  | .tarr es _ => by
    intro e he
    rw [destroyEvs] at he
    rcases List.mem_append.1 he with h | h
    · exact destroyArr_all_destroy 0 es e h
    · simp at h; simp [h, sevIsDestroy]
  | .tobj fs _ => by
    intro e he
    rw [destroyEvs] at he
    rcases List.mem_append.1 he with h | h
    · exact destroyObj_all_destroy fs e h
    · simp at h; simp [h, sevIsDestroy]

theorem destroyArr_all_destroy : ∀ (i : Nat) (es : List (Nat × Tome)),
    ∀ e ∈ destroyArr i es, sevIsDestroy e = true
  | _, [] => by intro e he; rw [destroyArr] at he; cases he
  | i, (_, c) :: rest => by
    intro e he
    rw [destroyArr] at he
    rcases List.mem_append.1 he with h | h
    · rw [shiftEvs] at h
      obtain ⟨e0, he0, hs⟩ := List.mem_map.1 h
      have := destroyEvs_all_destroy c e0 he0
      cases e0 <;> simp [sevIsDestroy] at this ⊢ <;> simp [SEv.shift] at hs <;>
        simp [← hs, sevIsDestroy]
    · exact destroyArr_all_destroy (i + 1) rest e h

theorem destroyObj_all_destroy : ∀ fs : List (Str × Option Tome),
    ∀ e ∈ destroyObj fs, sevIsDestroy e = true
  | [] => by intro e he; rw [destroyObj] at he; cases he
  | (_, none) :: rest => by
    intro e he
    rw [destroyObj] at he
    exact destroyObj_all_destroy rest e he
  | (k, some c) :: rest => by
    intro e he
    rw [destroyObj] at he
    rcases List.mem_append.1 he with h | h
    · rw [shiftEvs] at h
      obtain ⟨e0, he0, hs⟩ := List.mem_map.1 h
      have := destroyEvs_all_destroy c e0 he0
      cases e0 <;> simp [sevIsDestroy] at this ⊢ <;> simp [SEv.shift] at hs <;>
        simp [← hs, sevIsDestroy]
    · exact destroyObj_all_destroy rest e h

end

/-- C6 amended: on an object node `del(key)` removes the key's reference,
destroys the removed subtree — emitting exactly one `destroy` per node of
that subtree — and records a `del` diff entry, failing with `UndefinedKey`
when the key is absent and `NotAChild` when it references `undefined`,
leaving the node unchanged in both cases; on an ARRAY node `del(key)` does
not destroy anything: it replaces the element with a fresh undefined
placeholder (the array keeps its length), emits `del` and records the
`del` diff, with an `UndefinedKey`-style error on an out-of-range index. -/
theorem c6_del_behaviour :
    (∀ fs m s child, tfFind fs s = some (some child) →
      delLocal (.tobj fs m) (.f s) = .ok ⟨.tobj (tfRemove fs s) m,
          shiftEvs [.f s] (destroyEvs child) ++ [.del [] (.f s)], none,
          [chain1 kDel (.jstr s)]⟩ ∧
        (destroyEvs child).length = nodeCount child ∧
        (∀ e ∈ destroyEvs child, sevIsDestroy e = true)) ∧
    (∀ fs m s, tfFind fs s = none →
      delLocal (.tobj fs m) (.f s) = .error (.undefinedKey (.f s))) ∧
    (∀ fs m s, tfFind fs s = some none →
      delLocal (.tobj fs m) (.f s) = .error (.notAChild (.f s))) ∧
    (∀ es m n, n < es.length →
      delLocal (.tarr es m) (.i n) = .ok ⟨.tarr (es.set n (n, .tundef .init)) m,
        [.del [] (.i n)], none, [chain1 kDel (.jnum n)]⟩) ∧
    (∀ es m n, es.length ≤ n →
      delLocal (.tarr es m) (.i n) = .error (.undefinedKey (.i n))) := by
  refine ⟨fun fs m s child h => ⟨?_, destroyEvs_length child, destroyEvs_all_destroy child⟩,
    fun fs m s h => ?_, fun fs m s h => ?_, fun es m n h => ?_, fun es m n h => ?_⟩
  · simp [delLocal, h]
  · simp [delLocal, h]
  · simp [delLocal, h]
  · simp [delLocal, h]
  · simp [delLocal, Nat.not_lt.2 h]

theorem c6_witness :
    (delLocal (.tobj [(['a'], some (.tnum 1 ⟨1, none⟩))] ⟨1, none⟩) (.f ['a']) =
      .ok ⟨.tobj (tfRemove [(['a'], some (.tnum 1 ⟨1, none⟩))] ['a']) ⟨1, none⟩,
        shiftEvs [.f ['a']] (destroyEvs (.tnum 1 ⟨1, none⟩)) ++ [.del [] (.f ['a'])], none,
        [chain1 kDel (.jstr ['a'])]⟩) ∧
    delLocal (.tarr [(0, .tnum 1 ⟨1, none⟩)] ⟨1, none⟩) (.i 0) =
      .ok ⟨.tarr ([(0, .tnum 1 ⟨1, none⟩)].set 0 (0, .tundef .init)) ⟨1, none⟩,
        [.del [] (.i 0)], none, [chain1 kDel (.jnum 0)]⟩ :=
  ⟨(c6_del_behaviour.1 [(['a'], some (.tnum 1 ⟨1, none⟩))] ⟨1, none⟩ ['a']
      (.tnum 1 ⟨1, none⟩) (by decide)).1,
    c6_del_behaviour.2.2.2.1 [(0, .tnum 1 ⟨1, none⟩)] ⟨1, none⟩ 0 (by decide)⟩

theorem c10_witness :
    pause ⟨.tnull ⟨1, none⟩, some []⟩ = (⟨.tnull ⟨1, none⟩, some []⟩, true) ∧
    (∀ nIter : Nat,
      (fun s => (pause s).1)^[nIter] (⟨.tnull ⟨1, none⟩, some []⟩ : TState) =
        ⟨.tnull ⟨1, none⟩, some []⟩) ∧
    resume ⟨.tnull ⟨1, none⟩, some []⟩ =
      ({ root := (notify [] (Tome.tnull ⟨1, none⟩)).1, buffer := none },
        (([] : Buffer).map (fun g => g.2)).flatten.map (SEv.emit (.tnull ⟨1, none⟩)) ++
          (notify [] (Tome.tnull ⟨1, none⟩)).2,
        true) :=
  c10_pause_no_nesting ⟨.tnull ⟨1, none⟩, some []⟩ [] rfl


/-! ### Claim C1: the captured-diff round trip -/

def c1St : TState := stOf (.jarr [.jnum 1, .jnum 2, .jnum 3])

/-- The diff records tree A emits for `splice(0,1)` followed by
`A[0].assign(9)`: because splice leaves the survivors' stored `__key__`
untouched, the second record is chained under `'_1'` (the stale stored
key of the element now at index 0). -/
def c1Recs : List JVal :=
  [.jobj [(kSplice, .jarr [.jnum 0, .jnum 1])],
   .jobj [('_' :: natStr 1, .jobj [(kAssign, .jnum 9)])]]

set_option maxHeartbeats 3000000 in
/-- **C1.** The round trip fails in the code as written: on `[1,2,3]`,
tree A does `splice(0,1)` then assigns 9 at index 0, ending at `[9,3]` and
emitting exactly the records `c1Recs`; replaying those records into an
identical tree B via `consume` ends at `[2,9]` — the assign record is
addressed by the survivor's stale `__key__` 1 (splice omits the reindex
that shift/unshift/reverse/sort perform), so B applies it to the wrong
element and the two trees diverge. -/
theorem c1_roundtrip_divergence :
    (applySeq c1St [([], .splice 0 1 []), ([.i 0], .assign (.jnum 9))]).map
        (fun pr => (pr.1.root.value, pr.2)) = .ok (.jarr [.jnum 9, .jnum 3], c1Recs)
    ∧ (consumeSeq c1St c1Recs).map (fun st => st.root.value) =
        .ok (.jarr [.jnum 2, .jnum 9])
    ∧ (JVal.jarr [.jnum 9, .jnum 3]) ≠ (JVal.jarr [.jnum 2, .jnum 9]) := by
  refine ⟨by decide, ?_, by decide⟩
  simp only [c1St, c1Recs, consumeSeq, consume, consumeStep]
  simp +decide only [mergeDispatch.eq_def, mergeArrF.eq_def, mergeTomeF.eq_def,
    mergeNumF.eq_def, mergeObjF.eq_def]

end Tomes
